import Mathlib

/-!
Verification of the undo/redo engine (`Record`) and its compensating
checkpoint wrapper (`Checkpoint`) of the `redo` crate.

The definitions below are a shallow embedding of `src/record.rs` and
`src/checkpoint.rs`.  `VecDeque<C>` is modelled as `List C`; `usize` as
`Nat`; a Rust command value (which mutates itself through `&mut self`) is
modelled by functions `C → R → C × R × Option ε` returning the new command
state, the new receiver state and an optional error.  Operations that can
panic in Rust (`assert_ne!`, `split_off` out of range, out-of-bounds
indexing, `.unwrap()`) return `Option.none` at exactly those inputs.
-/

/-- `usize::max_value()`, the default `limit` of `Record::new`. -/
def USIZE_MAX : Nat := 2 ^ 64 - 1

/-- `Nat.checked_sub`: `n.checked_sub(k)` from Rust. -/
def checkedSub (n k : Nat) : Option Nat :=
  if k ≤ n then some (n - k) else none

/-- The `Signal` enum of `lib.rs`. -/
inductive Signal where
  | undo (b : Bool)
  | redo (b : Bool)
  | saved (b : Bool)
  | cursor (old : Nat) (next : Nat)
  | root (old : Nat) (next : Nat)
deriving DecidableEq, Repr

/-- A command implementation: the four methods of the `Command` trait as
used by `record.rs`.  `applyC`, `undoC`, `redoC` take the command state and
the receiver and return the mutated command, the mutated receiver and an
optional error (`none` = `Ok`).  `mergeC` models the old-API
`last.merge(cmd)` whose `.err()` is taken in `record.rs`: it returns the
mutated previous entry and `some cmd` when the commands were not merged
(`none` = absorbed). -/
structure CommandImpl (R C ε : Type) where
  applyC : C → R → C × R × Option ε
  undoC : C → R → C × R × Option ε
  redoC : C → R → C × R × Option ε
  mergeC : C → C → C × Option C

/-- The `Record` struct of `record.rs` (the `signal` slot is modelled by
returning the list of signals each operation would pass to a connected
slot, since the slot does not influence the state transition). -/
structure Record (R C : Type) where
  commands : List C
  receiver : R
  cursor : Nat
  limit : Nat
  saved : Option Nat
deriving DecidableEq, Repr

/-- `Record::new`. -/
def Record.new (receiver : R) : Record R C :=
  ⟨[], receiver, 0, USIZE_MAX, some 0⟩

/-- `RecordBuilder::build` preceded by `RecordBuilder::limit`/`saved`;
`RecordBuilder::limit` panics (`assert_ne!`) on `0`, hence `none`. -/
def Record.build (receiver : R) (limit : Nat) (savedB : Bool) :
    Option (Record R C) :=
  if limit = 0 then none
  else some ⟨[], receiver, 0, limit, if savedB then some 0 else none⟩

/-- `Record::can_undo`. -/
def Record.canUndo (r : Record R C) : Bool := decide (0 < r.cursor)

/-- `Record::can_redo`. -/
def Record.canRedo (r : Record R C) : Bool :=
  decide (r.cursor < r.commands.length)

/-- `Record::is_saved`. -/
def Record.isSaved (r : Record R C) : Bool :=
  decide (r.saved = some r.cursor)

/-- `Record::set_limit`.  `none` models the `assert_ne!(limit, 0)` panic.
Returns the new record, the returned new limit, and the emitted signals. -/
def Record.setLimit (r : Record R C) (limit : Nat) :
    Option (Record R C × Nat × List Signal) :=
  if limit = 0 then none
  else if limit < r.commands.length then
    let old := r.cursor
    let couldUndo := r.canUndo
    let wasSaved := r.isSaved
    let beginIdx := min r.cursor (r.commands.length - limit)
    let commands := r.commands.drop beginIdx
    let newLimit := commands.length
    let cursor := r.cursor - beginIdx
    let saved := r.saved.bind fun s => checkedSub s beginIdx
    let r' : Record R C := ⟨commands, r.receiver, cursor, newLimit, saved⟩
    let signals :=
      (if old ≠ cursor then [Signal.cursor old cursor] else [])
        ++ (if couldUndo ≠ r'.canUndo then [Signal.undo r'.canUndo] else [])
        ++ (if wasSaved ≠ r'.isSaved then [Signal.saved r'.isSaved] else [])
    some (r', newLimit, signals)
  else some ({ r with limit := limit }, limit, [])

/-- `Record::set_saved`. -/
def Record.setSaved (r : Record R C) (savedB : Bool) :
    Record R C × List Signal :=
  let wasSaved := r.isSaved
  if savedB then
    ({ r with saved := some r.cursor },
      if !wasSaved then [Signal.saved true] else [])
  else
    ({ r with saved := none },
      if wasSaved then [Signal.saved false] else [])

/-- `Record::clear`. -/
def Record.clear (r : Record R C) : Record R C × List Signal :=
  let old := r.cursor
  let couldUndo := r.canUndo
  let couldRedo := r.canRedo
  let saved := if r.isSaved then some 0 else none
  let r' : Record R C := ⟨[], r.receiver, 0, r.limit, saved⟩
  let signals :=
    (if old ≠ 0 then [Signal.cursor old 0] else [])
      ++ (if couldUndo then [Signal.undo false] else [])
      ++ (if couldRedo then [Signal.redo false] else [])
  (r', signals)

/-- Result of `Record::__apply`: either `Ok((merged, tail))` together with
the new state and the emitted signals, or the error together with the
failed command (the receiver keeps the command's partial mutation). -/
inductive ApplyResult (R C ε : Type) where
  | ok (r : Record R C) (merged : Bool) (tail : List C) (signals : List Signal)
  | error (r : Record R C) (cmd : C) (e : ε)
deriving DecidableEq, Repr

/-- `Record::__apply` (and hence `Record::apply`).  `Option.none` models
the `split_off(self.cursor)` panic, which fires when `cursor > len`
(unreachable from well-formed states; the command's own `apply` error is
checked before it, as in the source). -/
def Record.applyCore (r : Record R C) (impl : CommandImpl R C ε) (cmd : C) :
    Option (ApplyResult R C ε) :=
  match impl.applyC cmd r.receiver with
  | (cmd', recv', some e) => some (.error { r with receiver := recv' } cmd' e)
  | (cmd', recv', none) =>
    if r.cursor ≤ r.commands.length then
      let old := r.cursor
      let couldUndo := r.canUndo
      let couldRedo := r.canRedo
      let wasSaved := r.isSaved
      let v := r.commands.drop r.cursor
      let commands₀ := r.commands.take r.cursor
      let saved₀ := r.saved.filter fun s => decide (s ≤ r.cursor)
      let merge1 : List C × Option C :=
        match commands₀.getLast? with
        | some last =>
          if !wasSaved then
            let m := impl.mergeC last cmd'
            (commands₀.dropLast ++ [m.1], m.2)
          else (commands₀, some cmd')
        | none => (commands₀, some cmd')
      let commands₁ := merge1.1
      let merged := merge1.2.isNone
      let pushed : List C × Nat × Option Nat :=
        match merge1.2 with
        | some c =>
          if r.limit = r.cursor then
            (commands₁.tail ++ [c], r.cursor,
              saved₀.bind fun s => checkedSub s 1)
          else (commands₁ ++ [c], r.cursor + 1, saved₀)
        | none => (commands₁, r.cursor, saved₀)
      let r' : Record R C :=
        ⟨pushed.1, recv', pushed.2.1, r.limit, pushed.2.2⟩
      let signals :=
        [Signal.cursor old r'.cursor]
          ++ (if couldRedo then [Signal.redo false] else [])
          ++ (if !couldUndo then [Signal.undo true] else [])
          ++ (if wasSaved then [Signal.saved false] else [])
      some (.ok r' merged v signals)
    else none

/-- Result of `Record::undo`/`redo`/`go_to`: `none` is the API `None`,
`ok` is `Some(Ok(()))` with emitted signals, `error` is `Some(Err(..))`
carrying the record state left behind, the command and the error. -/
inductive StepResult (R C ε : Type) where
  | none
  | ok (r : Record R C) (signals : List Signal)
  | error (r : Record R C) (cmd : C) (e : ε)
deriving DecidableEq, Repr

/-- `Record::undo`.  The outer `Option.none` models the panic of the
indexing `self.commands[self.cursor - 1]` when `cursor - 1` is out of
range (only possible in a corrupted state where `cursor > len`). -/
def Record.undoStep (r : Record R C) (impl : CommandImpl R C ε) :
    Option (StepResult R C ε) :=
  if r.cursor = 0 then some .none
  else
    match r.commands[r.cursor - 1]? with
    | Option.none => none
    | some entry =>
      match impl.undoC entry r.receiver with
      | (cmd', recv', some e) =>
        some (.error
          ⟨r.commands.eraseIdx (r.cursor - 1), recv', r.cursor, r.limit,
            r.saved⟩ cmd' e)
      | (cmd', recv', Option.none) =>
        let wasSaved := r.isSaved
        let old := r.cursor
        let commands' := r.commands.set (r.cursor - 1) cmd'
        let len := commands'.length
        let r' : Record R C :=
          ⟨commands', recv', r.cursor - 1, r.limit, r.saved⟩
        let signals :=
          [Signal.cursor old r'.cursor]
            ++ (if old = len then [Signal.redo true] else [])
            ++ (if old = 1 then [Signal.undo false] else [])
            ++ (if wasSaved ≠ r'.isSaved then [Signal.saved r'.isSaved]
                else [])
        some (.ok r' signals)

/-- `Record::redo`.  The `can_redo` guard makes the indexing
`self.commands[self.cursor]` always in range, so no panic case arises. -/
def Record.redoStep (r : Record R C) (impl : CommandImpl R C ε) :
    StepResult R C ε :=
  if h : r.cursor < r.commands.length then
    match impl.redoC (r.commands.get ⟨r.cursor, h⟩) r.receiver with
    | (cmd', recv', some e) =>
      .error ⟨r.commands.eraseIdx r.cursor, recv', r.cursor, r.limit, r.saved⟩
        cmd' e
    | (cmd', recv', Option.none) =>
      let wasSaved := r.isSaved
      let old := r.cursor
      let commands' := r.commands.set r.cursor cmd'
      let len := commands'.length
      let r' : Record R C :=
        ⟨commands', recv', r.cursor + 1, r.limit, r.saved⟩
      let signals :=
        [Signal.cursor old r'.cursor]
          ++ (if old = len - 1 then [Signal.redo false] else [])
          ++ (if old = 0 then [Signal.undo true] else [])
          ++ (if wasSaved ≠ r'.isSaved then [Signal.saved r'.isSaved] else [])
      .ok r' signals
  else .none

/-- The `while self.cursor != cursor` walk of `Record::go_to`, with enough
fuel to reach the target.  The outer `Option.none` models the panics
(`f(self).unwrap()` on `None`, an out-of-range undo index, or exhausted
fuel, all unreachable for in-range targets). -/
def Record.goToLoop (impl : CommandImpl R C ε) (redoDir : Bool)
    (target : Nat) :
    Nat → Record R C → Option (Record R C × Option (C × ε))
  | 0, r => if r.cursor = target then some (r, Option.none) else none
  | Nat.succ fuel, r =>
    if r.cursor = target then some (r, Option.none)
    else if redoDir then
      match r.redoStep impl with
      | .ok r' _ => Record.goToLoop impl redoDir target fuel r'
      | .error r' c e => some (r', some (c, e))
      | .none => none
    else
      match r.undoStep impl with
      | Option.none => none
      | some .none => none
      | some (.ok r' _) => Record.goToLoop impl redoDir target fuel r'
      | some (.error r' c e) => some (r', some (c, e))

/-- `Record::go_to`. -/
def Record.goTo (r : Record R C) (impl : CommandImpl R C ε) (target : Nat) :
    Option (StepResult R C ε) :=
  if target > r.commands.length then some .none
  else
    let wasSaved := r.isSaved
    let old := r.cursor
    let len := r.commands.length
    let redoDir := decide (target > r.cursor)
    let fuel := if redoDir then target - r.cursor else r.cursor - target
    match Record.goToLoop impl redoDir target fuel r with
    | Option.none => none
    | some (r', some (c, e)) => some (.error r' c e)
    | some (r', Option.none) =>
      let isSaved' := r'.isSaved
      let signals :=
        (if old ≠ r'.cursor then [Signal.cursor old r'.cursor] else [])
          ++ (if wasSaved ≠ isSaved' then [Signal.saved isSaved'] else [])
          ++ (if redoDir then
                (if old = len - 1 then [Signal.redo false] else [])
                  ++ (if old = 0 then [Signal.undo true] else [])
              else
                (if old = len then [Signal.redo true] else [])
                  ++ (if old = 1 then [Signal.undo false] else []))
      some (.ok r' signals)

/-- `Record::jump_to`. -/
def Record.jumpTo (r : Record R C) (impl : CommandImpl R C ε) (target : Nat) :
    Option (StepResult R C ε) :=
  if target > r.commands.length then some .none
  else if target = r.cursor then some (.ok r [])
  else
    let wasSaved := r.isSaved
    let old := r.cursor
    let len := r.commands.length
    let redoDir := decide (target > r.cursor)
    let stepped : Option (Record R C ⊕ (Record R C × C × ε)) :=
      if redoDir then
        match Record.redoStep { r with cursor := target - 1 } impl with
        | .ok r' _ => some (Sum.inl r')
        | .error r' c e => some (Sum.inr (r', c, e))
        | .none => none
      else
        match Record.undoStep { r with cursor := target + 1 } impl with
        | Option.none => none
        | some .none => none
        | some (.ok r' _) => some (Sum.inl r')
        | some (.error r' c e) => some (Sum.inr (r', c, e))
    match stepped with
    | Option.none => none
    | some (Sum.inr (r', c, e)) => some (.error r' c e)
    | some (Sum.inl r') =>
      let isSaved' := r'.isSaved
      let signals :=
        (if old ≠ r'.cursor then [Signal.cursor old r'.cursor] else [])
          ++ (if wasSaved ≠ isSaved' then [Signal.saved isSaved'] else [])
          ++ (if redoDir then
                (if old = len - 1 then [Signal.redo false] else [])
                  ++ (if old = 0 then [Signal.undo true] else [])
              else
                (if old = len then [Signal.redo true] else [])
                  ++ (if old = 1 then [Signal.undo false] else []))
      some (.ok r' signals)

/-- The outcome type of the newer merge protocol (`Merge` in `lib.rs`):
`yes` and `no` carry the (possibly mutated) previous entry, `no` also
returns the incoming command. -/
inductive Merge3 (C : Type) where
  | yes (last : C)
  | no (last : C) (cmd : C)
  | annul
deriving DecidableEq, Repr

/-- Modelled from the spec: the revision of `Record::__apply` that handles
the three-way `Merge` outcome declared in `lib.rs` (`Yes`/`No`/`Annul`).
That revision of `record.rs` is not under `src/` — `lib.rs` only declares
`Merge` and `checkpoint.rs` only calls it — so this definition follows
§4.2 of the spec: on success truncate the log to `cursor`, attempt the
merge against the last entry unless the receiver is in its saved state,
then `Yes` → the new entry is absorbed into the previous one,
`Annul` → pop the previous entry too and discard both,
`No` → push, with the same limit eviction as the `src/` revision. -/
def Record.applySpec (r : Record R C) (m3 : C → C → Merge3 C)
    (impl : CommandImpl R C ε) (cmd : C) : Option (ApplyResult R C ε) :=
  match impl.applyC cmd r.receiver with
  | (cmd', recv', some e) => some (.error { r with receiver := recv' } cmd' e)
  | (cmd', recv', none) =>
    if r.cursor ≤ r.commands.length then
      let old := r.cursor
      let couldUndo := r.canUndo
      let couldRedo := r.canRedo
      let wasSaved := r.isSaved
      let v := r.commands.drop r.cursor
      let commands₀ := r.commands.take r.cursor
      let saved₀ := r.saved.filter fun s => decide (s ≤ r.cursor)
      let outcome : Merge3 C :=
        match commands₀.getLast? with
        | some last => if !wasSaved then m3 last cmd' else .no last cmd'
        | none => .no cmd' cmd'
      let next : List C × Nat × Option Nat × Bool :=
        match outcome with
        | .yes last' =>
          (commands₀.dropLast ++ [last'], r.cursor, saved₀, true)
        | .annul => (commands₀.dropLast, r.cursor - 1, saved₀, true)
        | .no last' c =>
          let commands₁ :=
            if commands₀.isEmpty then commands₀
            else commands₀.dropLast ++ [last']
          if r.limit = r.cursor then
            (commands₁.tail ++ [c], r.cursor,
              saved₀.bind fun s => checkedSub s 1, false)
          else (commands₁ ++ [c], r.cursor + 1, saved₀, false)
      let r' : Record R C :=
        ⟨next.1, recv', next.2.1, r.limit, next.2.2.1⟩
      let signals :=
        [Signal.cursor old r'.cursor]
          ++ (if couldRedo then [Signal.redo false] else [])
          ++ (if !couldUndo then [Signal.undo true] else [])
          ++ (if wasSaved then [Signal.saved false] else [])
      some (.ok r' next.2.2.2 v signals)
    else none

/-- An operation forwarded through a `Checkpoint<Record>`. -/
inductive CpOp (C : Type) where
  | apply (cmd : C)
  | undo
  | redo
  | goTo (target : Nat)
deriving DecidableEq, Repr

/-- The `Action` enum of `checkpoint.rs` (for a wrapped `Record`, the
branch argument of `GoTo` is always `0` and is omitted). -/
inductive CpAction (C : Type) where
  | apply (tail : List C)
  | undo
  | redo
  | goTo (cursor : Nat)
deriving DecidableEq, Repr

/-- One forwarded call through `Checkpoint<Record>`: on success it returns
the new record and the compensating action pushed on the stack; `none`
when the call did not succeed (an error, an API `None`, or a panic). -/
def cpStep (impl : CommandImpl R C ε) (r : Record R C) :
    CpOp C → Option (Record R C × CpAction C)
  | .apply c =>
    match r.applyCore impl c with
    | some (.ok r' _ tail _) => some (r', .apply tail)
    | _ => none
  | .undo =>
    match r.undoStep impl with
    | some (.ok r' _) => some (r', .undo)
    | _ => none
  | .redo =>
    match r.redoStep impl with
    | .ok r' _ => some (r', .redo)
    | _ => none
  | .goTo t =>
    match r.goTo impl t with
    | some (.ok r' _) => some (r', .goTo r.cursor)
    | _ => none

/-- A sequence of forwarded calls that all return success; the returned
list is the checkpoint's action stack in push order. -/
def cpRun (impl : CommandImpl R C ε) :
    Record R C → List (CpOp C) → Option (Record R C × List (CpAction C))
  | r, [] => some (r, [])
  | r, op :: ops =>
    match cpStep impl r op with
    | some (r', a) =>
      match cpRun impl r' ops with
      | some (r'', stack) => some (r'', a :: stack)
      | none => none
    | none => none

/-- Result of `Checkpoint::cancel`: `ok` or the first failing inverse
step's error (with the partially rolled-back record). -/
inductive CancelResult (R C ε : Type) where
  | ok (r : Record R C)
  | error (r : Record R C) (cmd : C) (e : ε)
  | fault
deriving DecidableEq, Repr

/-- Undoing one `Action` in `Checkpoint::cancel` for a wrapped `Record`:
`Apply(v)` → `undo` (an error aborts; an API `None` falls through, since
the source only matches `Some(Err(..))`), then truncate the log to the
cursor and splice `v` back; `Undo` → `redo`; `Redo` → `undo`;
`GoTo(cursor)` → `go_to(cursor)`.  `fault` models a panic inside the
inverse call. -/
def cpCancelAction (impl : CommandImpl R C ε) (r : Record R C) :
    CpAction C → CancelResult R C ε
  | .apply v =>
    let afterUndo : CancelResult R C ε :=
      match r.undoStep impl with
      | Option.none => .fault
      | some (.error r' c e) => .error r' c e
      | some (.ok r' _) => .ok r'
      | some .none => .ok r
    match afterUndo with
    | .ok r' => .ok { r' with commands := r'.commands.take r'.cursor ++ v }
    | other => other
  | .undo =>
    match r.redoStep impl with
    | .error r' c e => .error r' c e
    | .ok r' _ => .ok r'
    | .none => .ok r
  | .redo =>
    match r.undoStep impl with
    | Option.none => .fault
    | some (.error r' c e) => .error r' c e
    | some (.ok r' _) => .ok r'
    | some .none => .ok r
  | .goTo c =>
    match r.goTo impl c with
    | Option.none => .fault
    | some (.error r' c' e) => .error r' c' e
    | some (.ok r' _) => .ok r'
    | some .none => .ok r

/-- Folding `cpCancelAction` over a list of actions, stopping at the first
error. -/
def cpCancelList (impl : CommandImpl R C ε) :
    Record R C → List (CpAction C) → CancelResult R C ε
  | r, [] => .ok r
  | r, a :: rest =>
    match cpCancelAction impl r a with
    | .ok r' => cpCancelList impl r' rest
    | other => other

/-- `Checkpoint::cancel`: pop the action stack in reverse (LIFO) order and
execute each action's inverse. -/
def cpCancel (impl : CommandImpl R C ε) (r : Record R C)
    (stack : List (CpAction C)) : CancelResult R C ε :=
  cpCancelList impl r stack.reverse

/-- Sequencing plain `Record::apply` calls; `none` unless every one
returns `Ok`. -/
def applyN (impl : CommandImpl R C ε) :
    List C → Record R C → Option (Record R C)
  | [], r => some r
  | c :: cs, r =>
    match r.applyCore impl c with
    | some (.ok r' _ _ _) => applyN impl cs r'
    | _ => none

/-- One `Record::undo` call viewed as a partial state transition:
`none` unless it returns `Some(Ok(()))`. -/
def undoStepO (impl : CommandImpl R C ε) (r : Record R C) :
    Option (Record R C) :=
  match r.undoStep impl with
  | some (.ok r' _) => some r'
  | _ => none

/-- `n` consecutive `Record::undo` calls, all required to return
`Some(Ok(()))`. -/
def undoN (impl : CommandImpl R C ε) : Nat → Record R C → Option (Record R C)
  | 0, r => some r
  | n + 1, r => (undoStepO impl r).bind (undoN impl n)

/-- A stateless increment command over a `Nat` receiver (the analogue of
the `Add` test command): `apply`/`redo` add one, `undo` subtracts one,
`merge` never merges (the trait default `No`). -/
def IncrImpl : CommandImpl Nat Unit Unit where
  applyC := fun _ n => ((), n + 1, none)
  undoC := fun _ n => ((), n - 1, none)
  redoC := fun _ n => ((), n + 1, none)
  mergeC := fun a b => (a, some b)

/-- A command over a `Nat` receiver driven by its `Bool` state: `true`
commands behave like `IncrImpl`, `false` commands fail in `apply`, `undo`
and `redo` after bumping the receiver by 10 (partial mutation). -/
def FailImpl : CommandImpl Nat Bool Unit where
  applyC := fun c n => if c then (c, n + 1, none) else (c, n + 10, some ())
  undoC := fun c n => if c then (c, n - 1, none) else (c, n + 10, some ())
  redoC := fun c n => if c then (c, n + 1, none) else (c, n + 10, some ())
  mergeC := fun a b => (a, some b)

example :
    (applyN IncrImpl [(), (), (), (), ()] (Record.new 0)).map
        (fun r => (r.commands.length, r.cursor, r.receiver, r.saved)) =
      some (5, 5, 5, some 0) := by decide

example :
    ((applyN IncrImpl [(), (), (), (), ()] (Record.new 0)).bind
        (fun r => r.setLimit 3)).map
        (fun p => (p.1.commands.length, p.1.cursor, p.1.saved, p.2.1)) =
      some (3, 3, none, 3) := by decide

example :
    (((applyN IncrImpl [(), (), (), (), ()] (Record.new 0)).bind
        (undoN IncrImpl 3)).bind
        (fun r => r.setLimit 2)).map
        (fun p => (p.1.commands.length, p.1.cursor, p.1.receiver, p.2.1)) =
      some (3, 0, 2, 3) := by decide

example :
    (((applyN IncrImpl [(), (), (), (), ()] (Record.new 0)).bind
        (undoN IncrImpl 5)).bind
        (fun r => r.setLimit 2)).map
        (fun p => (p.1.commands.length, p.1.cursor, p.1.receiver, p.2.1)) =
      some (5, 0, 0, 5) := by decide

example :
    ((applyN IncrImpl [(), (), (), (), ()] (Record.new 0)).bind
        (fun r => r.goTo IncrImpl 1)) =
      some (.ok ⟨[(), (), (), (), ()], 1, 1, USIZE_MAX, some 0⟩
        [Signal.cursor 5 1, Signal.redo true]) := by decide

example :
    (cpRun IncrImpl (Record.new 0) [.apply (), .apply (), .undo]).map
        (fun p => (p.1.receiver, p.1.cursor, p.2)) =
      some (1, 1, [.apply [], .apply [], .undo]) := by decide

example :
    ((cpRun IncrImpl (Record.new 0) [.apply (), .apply (), .undo]).map
        fun p => cpCancel IncrImpl p.1 p.2) =
      some (.ok (Record.new 0)) := by decide

theorem listSet_getElem?_self {α : Type} {l : List α} {i : Nat} {a : α}
    (h : l[i]? = some a) : l.set i a = l := by
  induction l generalizing i with
  | nil => simp at h
  | cons x xs ih =>
    cases i with
    | zero => simp_all
    | succ n => simp_all

theorem getLast?_ne_nil {α : Type} {l : List α} {a : α}
    (h : l.getLast? = some a) : l ≠ [] := by
  rintro rfl; simp at h

theorem dropLast_append_of_getLast? {α : Type} {l : List α} {a : α}
    (h : l.getLast? = some a) : l.dropLast ++ [a] = l := by
  have hne : l ≠ [] := getLast?_ne_nil h
  have : l.getLast hne = a := by
    have := List.getLast?_eq_getLast l hne
    rw [this] at h
    exact Option.some.inj h
  rw [← this]
  exact List.dropLast_append_getLast hne

/-- Characterization of a successful `Record::__apply` when the merge
returns `No` (in particular when `merge` is the trait default) and the
limit has not been reached: the command is pushed and the cursor
advances. -/
theorem applyCore_noMerge (impl : CommandImpl R C ε) (r : Record R C)
    (cmd c' : C) (recv' : R)
    (Hm : ∀ a b, impl.mergeC a b = (a, some b))
    (hap : impl.applyC cmd r.receiver = (c', recv', none))
    (hcl : r.cursor ≤ r.commands.length)
    (hlim : r.limit ≠ r.cursor) :
    r.applyCore impl cmd = some (.ok
      ⟨r.commands.take r.cursor ++ [c'], recv', r.cursor + 1, r.limit,
        r.saved.filter fun s => decide (s ≤ r.cursor)⟩
      false (r.commands.drop r.cursor)
      ([Signal.cursor r.cursor (r.cursor + 1)]
        ++ (if r.canRedo then [Signal.redo false] else [])
        ++ (if !r.canUndo then [Signal.undo true] else [])
        ++ (if r.isSaved then [Signal.saved false] else []))) := by
  simp only [Record.applyCore, hap, hcl, if_true]
  rcases hlast : (r.commands.take r.cursor).getLast? with _ | last
  · simp [hlast, hlim]
  · rcases hsv : r.isSaved with _ | _
    · simp [hlast, hsv, Hm, hlim, dropLast_append_of_getLast? hlast]
    · simp [hlast, hsv, hlim]

/-- Characterization of a successful `Record::undo`. -/
theorem undoStep_ok (impl : CommandImpl R C ε) (r : Record R C)
    (entry c' : C) (recv' : R)
    (h0 : r.cursor ≠ 0)
    (hget : r.commands[r.cursor - 1]? = some entry)
    (hu : impl.undoC entry r.receiver = (c', recv', none)) :
    r.undoStep impl = some (.ok
      ⟨r.commands.set (r.cursor - 1) c', recv', r.cursor - 1, r.limit,
        r.saved⟩
      ([Signal.cursor r.cursor (r.cursor - 1)]
        ++ (if r.cursor = r.commands.length then [Signal.redo true] else [])
        ++ (if r.cursor = 1 then [Signal.undo false] else [])
        ++ (if r.isSaved ≠ decide (r.saved = some (r.cursor - 1))
            then [Signal.saved (decide (r.saved = some (r.cursor - 1)))]
            else []))) := by
  simp only [Record.undoStep, h0, if_false, hget, hu]
  simp [Record.isSaved]

/-- Characterization of a failing `Record::undo`: the entry is evicted,
the error is returned with the (mutated) command, the cursor stays. -/
theorem undoStep_error (impl : CommandImpl R C ε) (r : Record R C)
    (entry c' : C) (recv' : R) (e : ε)
    (h0 : r.cursor ≠ 0)
    (hget : r.commands[r.cursor - 1]? = some entry)
    (hu : impl.undoC entry r.receiver = (c', recv', some e)) :
    r.undoStep impl = some (.error
      ⟨r.commands.eraseIdx (r.cursor - 1), recv', r.cursor, r.limit,
        r.saved⟩ c' e) := by
  simp only [Record.undoStep, h0, if_false, hget, hu]

/-- Characterization of a successful `Record::redo`. -/
theorem redoStep_ok (impl : CommandImpl R C ε) (r : Record R C)
    (c' : C) (recv' : R)
    (h : r.cursor < r.commands.length)
    (hu : impl.redoC (r.commands.get ⟨r.cursor, h⟩) r.receiver =
      (c', recv', none)) :
    r.redoStep impl = .ok
      ⟨r.commands.set r.cursor c', recv', r.cursor + 1, r.limit, r.saved⟩
      ([Signal.cursor r.cursor (r.cursor + 1)]
        ++ (if r.cursor = r.commands.length - 1 then [Signal.redo false]
            else [])
        ++ (if r.cursor = 0 then [Signal.undo true] else [])
        ++ (if r.isSaved ≠ decide (r.saved = some (r.cursor + 1))
            then [Signal.saved (decide (r.saved = some (r.cursor + 1)))]
            else [])) := by
  simp only [Record.redoStep, dif_pos h, hu]
  simp [Record.isSaved]

/-- Characterization of a failing `Record::redo`. -/
theorem redoStep_error (impl : CommandImpl R C ε) (r : Record R C)
    (c' : C) (recv' : R) (e : ε)
    (h : r.cursor < r.commands.length)
    (hu : impl.redoC (r.commands.get ⟨r.cursor, h⟩) r.receiver =
      (c', recv', some e)) :
    r.redoStep impl = .error
      ⟨r.commands.eraseIdx r.cursor, recv', r.cursor, r.limit, r.saved⟩
      c' e := by
  simp only [Record.redoStep, dif_pos h, hu]

/-- C10: after every `Record::apply` that returns `Ok`, the cursor equals
the log length, so `can_redo()` is `false` and an immediately following
`redo()` returns `None` — whether the command was merged, pushed, or
caused a limit eviction. -/
theorem c10_apply_cursor_eq_len (impl : CommandImpl R C ε) (r : Record R C)
    (cmd : C) (r' : Record R C) (m : Bool) (t : List C) (s : List Signal)
    (hcl : r.cursor ≤ r.commands.length) (hlim : 0 < r.limit)
    (hok : r.applyCore impl cmd = some (.ok r' m t s)) :
    r'.cursor = r'.commands.length ∧ r'.canRedo = false ∧
      r'.redoStep impl = .none := by
  have hmain : r'.cursor = r'.commands.length := by
    rcases happ : impl.applyC cmd r.receiver with ⟨c', recv', e⟩
    rcases e with _ | e
    · have hlen : (r.commands.take r.cursor).length = r.cursor := by
        simp [List.length_take]; omega
      simp only [Record.applyCore, happ, hcl, if_true] at hok
      rcases hlast : (r.commands.take r.cursor).getLast? with _ | last
      · have hc0 : r.cursor = 0 := by
          rw [List.getLast?_eq_none_iff] at hlast
          rw [hlast] at hlen
          simpa using hlen.symm
        have hev : ¬ (r.limit = r.cursor) := by omega
        simp only [hlast, hev, if_false] at hok
        simp only [Option.some.injEq, ApplyResult.ok.injEq] at hok
        obtain ⟨h1, -, -, -⟩ := hok
        rw [← h1]
        simp
        omega
      · have hne : (r.commands.take r.cursor).length ≠ 0 := by
          intro h
          rw [List.length_eq_zero.mp h] at hlast
          simp at hlast
        rcases hsv : r.isSaved with _ | _
        · rcases hm : impl.mergeC last c' with ⟨last', mc⟩
          rcases mc with _ | c2
          · simp only [hlast, hsv, hm, Bool.not_false, if_true] at hok
            simp only [Option.some.injEq, ApplyResult.ok.injEq] at hok
            obtain ⟨h1, -, -, -⟩ := hok
            rw [← h1]
            simp
            omega
          · by_cases hev : r.limit = r.cursor
            · simp only [hlast, hsv, hm, Bool.not_false, if_true, hev] at hok
              simp only [Option.some.injEq, ApplyResult.ok.injEq] at hok
              obtain ⟨h1, -, -, -⟩ := hok
              rw [← h1]
              simp
              omega
            · simp only [hlast, hsv, hm, Bool.not_false, if_true, hev,
                if_false] at hok
              simp only [Option.some.injEq, ApplyResult.ok.injEq] at hok
              obtain ⟨h1, -, -, -⟩ := hok
              rw [← h1]
              simp
              omega
        · by_cases hev : r.limit = r.cursor
          · simp only [hlast, hsv, Bool.not_true, if_false, hev] at hok
            simp only [Option.some.injEq, ApplyResult.ok.injEq] at hok
            obtain ⟨h1, -, -, -⟩ := hok
            rw [← h1]
            simp
            omega
          · simp only [hlast, hsv, Bool.not_true, if_false, hev] at hok
            simp only [Option.some.injEq, ApplyResult.ok.injEq] at hok
            obtain ⟨h1, -, -, -⟩ := hok
            rw [← h1]
            simp
            omega
    · simp [Record.applyCore, happ] at hok
  refine ⟨hmain, ?_, ?_⟩
  · simp [Record.canRedo, hmain]
  · simp [Record.redoStep, hmain]

/-- C2: when a command's `apply` on the current receiver returns an error,
`Record::apply` returns that error together with the failed command, and
the record's log, cursor, limit and saved marker are all left unchanged
(the command is never added to the log; only the receiver keeps whatever
partial mutation the command made). -/
theorem c2_apply_error_preserves_state (impl : CommandImpl R C ε)
    (r : Record R C) (cmd c' : C) (recv' : R) (e : ε)
    (h : impl.applyC cmd r.receiver = (c', recv', some e)) :
    r.applyCore impl cmd =
      some (.error ⟨r.commands, recv', r.cursor, r.limit, r.saved⟩ c' e) := by
  simp [Record.applyCore, h]

theorem c2_witness :
    (Record.new 5 : Record Nat Bool).applyCore FailImpl false =
      some (.error ⟨[], 15, 0, USIZE_MAX, some 0⟩ false ()) :=
  c2_apply_error_preserves_state FailImpl (Record.new 5) false false 15 ()
    (by decide)

/-- C3: a failing `undo` of the entry at `cursor - 1` removes that entry
from the log, returns the error with the command, and leaves the cursor
unchanged; symmetrically a failing `redo` of the entry at `cursor` removes
that entry, returns the error with the command, and leaves the cursor
unchanged. -/
theorem c3_failed_undo_redo_evicts_entry :
    (∀ (impl : CommandImpl R C ε) (r : Record R C) (entry c' : C)
        (recv' : R) (e : ε),
      r.cursor ≠ 0 → r.commands[r.cursor - 1]? = some entry →
      impl.undoC entry r.receiver = (c', recv', some e) →
      r.undoStep impl = some (.error
        ⟨r.commands.eraseIdx (r.cursor - 1), recv', r.cursor, r.limit,
          r.saved⟩ c' e)) ∧
    (∀ (impl : CommandImpl R C ε) (r : Record R C) (c' : C) (recv' : R)
        (e : ε) (h : r.cursor < r.commands.length),
      impl.redoC (r.commands.get ⟨r.cursor, h⟩) r.receiver =
        (c', recv', some e) →
      r.redoStep impl = .error
        ⟨r.commands.eraseIdx r.cursor, recv', r.cursor, r.limit, r.saved⟩
        c' e) :=
  ⟨fun impl r entry c' recv' e h0 hget hu =>
      undoStep_error impl r entry c' recv' e h0 hget hu,
    fun impl r c' recv' e h hu => redoStep_error impl r c' recv' e h hu⟩

theorem c3_witness :
    ((⟨[false, true], 5, 1, 10, some 0⟩ : Record Nat Bool).undoStep FailImpl =
        some (.error ⟨[true], 15, 1, 10, some 0⟩ false ())) ∧
    ((⟨[true, false], 5, 1, 10, some 0⟩ : Record Nat Bool).redoStep FailImpl =
        .error ⟨[true], 15, 1, 10, some 0⟩ false ()) :=
  ⟨c3_failed_undo_redo_evicts_entry.1 FailImpl _ false false 15 ()
      (by decide) (by decide) (by decide),
    c3_failed_undo_redo_evicts_entry.2 FailImpl _ false 15 ()
      (by decide) (by decide)⟩

/-- C8 (bug evidence): on a record with one applied command
(`cursor = len = 1`), `go_to(1)` — and hence the second of two
consecutive `go_to(1)` calls, since the record is returned unchanged — is
a no-op returning `Some(Ok(()))`, yet it emits `Redo(true)` and
`Undo(false)` to a connected slot even though neither ability changed,
contradicting the claim that the second call emits no signal. -/
theorem c8_goto_noop_emits_spurious_signals :
    applyN IncrImpl [()] (Record.new 0) =
        some ⟨[()], 1, 1, USIZE_MAX, some 0⟩ ∧
      (⟨[()], 1, 1, USIZE_MAX, some 0⟩ : Record Nat Unit).goTo IncrImpl 1 =
        some (.ok ⟨[()], 1, 1, USIZE_MAX, some 0⟩
          [Signal.redo true, Signal.undo false]) ∧
      [Signal.redo true, Signal.undo false] ≠ ([] : List Signal) := by
  decide

/-- C9 (bug evidence): on a record with two applied commands
(`cursor = len = 2`), `go_to(0)` flips `can_undo` from `true` to `false`
but emits only `Cursor{2,0}`, `Saved(true)` and `Redo(true)` — no
`Undo(false)` — because the source tests `old == 1` instead of comparing
the pre- and post-call `can_undo`. -/
theorem c9_goto_misses_undo_edge :
    applyN IncrImpl [(), ()] (Record.new 0) =
        some ⟨[(), ()], 2, 2, USIZE_MAX, some 0⟩ ∧
      (⟨[(), ()], 2, 2, USIZE_MAX, some 0⟩ : Record Nat Unit).goTo IncrImpl 0 =
        some (.ok ⟨[(), ()], 0, 0, USIZE_MAX, some 0⟩
          [Signal.cursor 2 0, Signal.saved true, Signal.redo true]) ∧
      (⟨[(), ()], 2, 2, USIZE_MAX, some 0⟩ : Record Nat Unit).canUndo = true ∧
      (⟨[(), ()], 0, 0, USIZE_MAX, some 0⟩ : Record Nat Unit).canUndo =
        false ∧
      Signal.undo false ∉
        [Signal.cursor 2 0, Signal.saved true, Signal.redo true] := by
  decide

theorem c10_witness :
    (⟨[()], 1, 1, USIZE_MAX, some 0⟩ : Record Nat Unit).cursor =
        (⟨[()], 1, 1, USIZE_MAX, some 0⟩ : Record Nat Unit).commands.length ∧
      (⟨[()], 1, 1, USIZE_MAX, some 0⟩ : Record Nat Unit).canRedo = false ∧
      (⟨[()], 1, 1, USIZE_MAX, some 0⟩ : Record Nat Unit).redoStep IncrImpl =
        .none :=
  c10_apply_cursor_eq_len IncrImpl (Record.new 0) ()
    ⟨[()], 1, 1, USIZE_MAX, some 0⟩ false []
    [Signal.cursor 0 1, Signal.undo true, Signal.saved false]
    (by decide) (by decide) (by decide)

/-- C7 (counterexample to the claim as stated): after five applies and
five undos the cursor is `0` and the log holds five entries; `set_limit(2)`
then drops nothing (`begin = min(0, 3) = 0`) and adjusts the stored limit
to `5`, so afterwards `len = 5 > max(2, cursor) = 2`, refuting the claimed
`cursor ≤ len ≤ max(n, cursor)`. -/
theorem c7_counterexample :
    ((applyN IncrImpl [(), (), (), (), ()] (Record.new 0)).bind
        (undoN IncrImpl 5)) =
        some ⟨[(), (), (), (), ()], 0, 0, USIZE_MAX, some 0⟩ ∧
      (⟨[(), (), (), (), ()], 0, 0, USIZE_MAX, some 0⟩ :
            Record Nat Unit).setLimit 2 =
        some (⟨[(), (), (), (), ()], 0, 0, 5, some 0⟩, 5, []) ∧
      ¬((⟨[(), (), (), (), ()], 0, 0, 5, some 0⟩ :
            Record Nat Unit).commands.length ≤
          max 2 (⟨[(), (), (), (), ()], 0, 0, 5, some 0⟩ :
            Record Nat Unit).cursor) := by
  decide

/-- C7 (amended): `set_limit(0)` fails fast; a successful `set_limit(n)`
with `n < len` drops exactly the entries `[0, begin)` with
`begin = min(cursor, len - n)` and shifts `cursor` and `saved` down by
`begin` (`saved` becoming `None` if it would go below zero); the
redo-capable suffix `[cursor, len)` is never evicted; and afterwards
`cursor ≤ len ≤ max(n, len - cursor)` (rather than the claimed
`len ≤ max(n, cursor)`, which the repository's own `set_limit` test
refutes). -/
theorem c7_set_limit :
    (∀ (r : Record R C), r.setLimit 0 = none) ∧
    (∀ (r : Record R C) (n : Nat) (r' : Record R C) (lim : Nat)
        (sigs : List Signal),
      r.setLimit n = some (r', lim, sigs) →
      (n < r.commands.length →
        r'.commands =
            r.commands.drop (min r.cursor (r.commands.length - n)) ∧
          r'.cursor = r.cursor - min r.cursor (r.commands.length - n) ∧
          r'.saved = r.saved.bind
            (fun s => checkedSub s (min r.cursor (r.commands.length - n)))) ∧
        r'.commands.drop r'.cursor = r.commands.drop r.cursor ∧
        (r.cursor ≤ r.commands.length →
          r'.cursor ≤ r'.commands.length ∧
            r'.commands.length ≤
              max n (r'.commands.length - r'.cursor))) := by
  constructor
  · intro r
    simp [Record.setLimit]
  · intro r n r' lim sigs h
    rcases Nat.eq_zero_or_pos n with rfl | hn
    · simp [Record.setLimit] at h
    · by_cases hlt : n < r.commands.length
      · simp only [Record.setLimit, Nat.pos_iff_ne_zero.mp hn, if_false,
          hlt, if_true, Option.some.injEq, Prod.mk.injEq] at h
        obtain ⟨hr, -, -⟩ := h
        subst hr
        refine ⟨fun _ => ⟨rfl, rfl, rfl⟩, ?_, ?_⟩
        · simp only [List.drop_drop]
          congr 1
          omega
        · intro hcl
          simp only [List.length_drop]
          omega
      · simp only [Record.setLimit, Nat.pos_iff_ne_zero.mp hn, if_false,
          hlt, Option.some.injEq, Prod.mk.injEq] at h
        obtain ⟨hr, -, -⟩ := h
        subst hr
        refine ⟨fun hc => absurd hc hlt, rfl, ?_⟩
        intro hcl
        constructor
        · exact hcl
        · show r.commands.length ≤ max n (r.commands.length - r.cursor)
          omega

theorem c7_witness :
    (⟨[(), (), ()], 5, 0, 3, none⟩ : Record Nat Unit).commands.length ≤
      max 2
        ((⟨[(), (), ()], 5, 0, 3, none⟩ :
            Record Nat Unit).commands.length -
          (⟨[(), (), ()], 5, 0, 3, none⟩ : Record Nat Unit).cursor) := by
  have h := c7_set_limit.2
    (⟨[(), (), (), (), ()], 5, 2, USIZE_MAX, some 1⟩ : Record Nat Unit) 2
    ⟨[(), (), ()], 5, 0, 3, none⟩ 3 [Signal.cursor 2 0, Signal.undo false]
    (by decide)
  exact (h.2.2 (by decide)).2

/-- C5: (1) when the receiver is in its saved state, `Record::__apply`
never attempts the merge — the result is independent of the `merge`
implementation and the `merged` flag is `false`; (2) in the spec-modelled
newer `__apply` matching `lib.rs`'s `Merge` enum, an `Annul` outcome
removes the previous log entry as well and discards both commands, leaving
the log one entry shorter than the applied prefix (and than the whole
pre-apply log when there was no redo suffix). -/
theorem c5_merge_guard_and_annul :
    (∀ (impl₁ impl₂ : CommandImpl R C ε) (r : Record R C) (cmd : C),
      impl₁.applyC = impl₂.applyC →
      r.isSaved = true →
      r.applyCore impl₁ cmd = r.applyCore impl₂ cmd ∧
        (∀ r' m t s, r.applyCore impl₁ cmd = some (.ok r' m t s) →
          m = false)) ∧
    (∀ (m3 : C → C → Merge3 C) (impl : CommandImpl R C ε) (r : Record R C)
        (cmd c' last : C) (recv' : R),
      impl.applyC cmd r.receiver = (c', recv', Option.none) →
      r.cursor ≤ r.commands.length →
      r.isSaved = false →
      (r.commands.take r.cursor).getLast? = some last →
      m3 last c' = .annul →
      ∀ r' m t s, r.applySpec m3 impl cmd = some (.ok r' m t s) →
        r'.commands = (r.commands.take r.cursor).dropLast ∧
          r'.cursor = r.cursor - 1 ∧
          r'.commands.length + 1 = r.cursor ∧
          (r.cursor = r.commands.length →
            r'.commands.length + 1 = r.commands.length)) := by
  constructor
  · intro impl₁ impl₂ r cmd heq hsv
    constructor
    · rcases happ : impl₁.applyC cmd r.receiver with ⟨c', recv', e⟩
      have happ₂ : impl₂.applyC cmd r.receiver = (c', recv', e) := by
        rw [← heq]; exact happ
      rcases e with _ | e
      · by_cases hcl : r.cursor ≤ r.commands.length
        · simp only [Record.applyCore, happ, happ₂, hcl, if_true]
          rcases hlast : (r.commands.take r.cursor).getLast? with _ | last
          · simp [hlast]
          · simp [hlast, hsv]
        · simp [Record.applyCore, happ, happ₂, hcl]
      · simp [Record.applyCore, happ, happ₂]
    · intro r' m t s hok
      rcases happ : impl₁.applyC cmd r.receiver with ⟨c', recv', e⟩
      rcases e with _ | e
      · by_cases hcl : r.cursor ≤ r.commands.length
        · simp only [Record.applyCore, happ, hcl, if_true] at hok
          rcases hlast : (r.commands.take r.cursor).getLast? with _ | last
          · simp only [hlast, Option.some.injEq, ApplyResult.ok.injEq]
              at hok
            obtain ⟨-, hm, -, -⟩ := hok
            simp [← hm]
          · simp only [hlast, hsv, Bool.not_true, if_false,
              Option.some.injEq, ApplyResult.ok.injEq] at hok
            obtain ⟨-, hm, -, -⟩ := hok
            simp [← hm]
        · simp [Record.applyCore, happ, hcl] at hok
      · simp [Record.applyCore, happ] at hok
  · intro m3 impl r cmd c' last recv' happ hcl hsv hlast hann r' m t s hok
    have hlen : (r.commands.take r.cursor).length = r.cursor := by
      simp [List.length_take]; omega
    have hpos : 0 < r.cursor := by
      rcases Nat.eq_zero_or_pos r.cursor with h0 | h
      · rw [h0] at hlast
        simp at hlast
      · exact h
    simp only [Record.applySpec, happ, hcl, if_true, hlast, hsv,
      Bool.not_false, if_true, hann, Option.some.injEq,
      ApplyResult.ok.injEq] at hok
    obtain ⟨hr, -, -, -⟩ := hok
    rw [← hr]
    refine ⟨rfl, rfl, ?_, ?_⟩
    · show (r.commands.take r.cursor).dropLast.length + 1 = r.cursor
      simp [List.length_dropLast]
      omega
    · intro hc
      show (r.commands.take r.cursor).dropLast.length + 1 =
        r.commands.length
      simp [List.length_dropLast]
      omega

/-- Like `IncrImpl` but with a `merge` that always absorbs the incoming
command (`Merge::Yes`). -/
def YesImpl : CommandImpl Nat Unit Unit :=
  { IncrImpl with mergeC := fun a _ => (a, none) }

theorem c5_witness :
    ((⟨[()], 5, 1, 10, some 1⟩ : Record Nat Unit).applyCore IncrImpl () =
        (⟨[()], 5, 1, 10, some 1⟩ : Record Nat Unit).applyCore YesImpl ()) ∧
      (⟨[()], 1, 1, 10, some 0⟩ : Record Nat Unit).commands =
        (([(), ()] : List Unit).take 2).dropLast := by
  constructor
  · have h := c5_merge_guard_and_annul.1 IncrImpl YesImpl
      (⟨[()], 5, 1, 10, some 1⟩ : Record Nat Unit) () rfl (by decide)
    exact h.1
  · have h2 := c5_merge_guard_and_annul.2 (fun _ _ => Merge3.annul)
      IncrImpl (⟨[(), ()], 0, 2, 10, some 0⟩ : Record Nat Unit) () () ()
      1 (by decide) (by decide) (by decide) (by decide) (by decide)
      ⟨[()], 1, 1, 10, some 0⟩ true [] [Signal.cursor 2 1] (by decide)
    exact h2.1

/-- Structural facts about every successful `Record::__apply` (on a record
with a nonzero limit, as every constructible record has): the limit is
unchanged, the new cursor equals the new length, the cursor advances by at
most one, and it does not advance at all when the limit had been
reached. -/
theorem applyCore_ok_facts (impl : CommandImpl R C ε) (r : Record R C)
    (cmd : C) {r' : Record R C} {m : Bool} {t : List C} {s : List Signal}
    (hlim : 0 < r.limit)
    (hok : r.applyCore impl cmd = some (.ok r' m t s)) :
    r.cursor ≤ r.commands.length ∧ r'.limit = r.limit ∧
      r'.cursor = r'.commands.length ∧ r'.cursor ≤ r.cursor + 1 ∧
      (r.limit = r.cursor → r'.cursor = r.cursor) := by
  rcases happ : impl.applyC cmd r.receiver with ⟨c', recv', e⟩
  rcases e with _ | e
  · by_cases hcl : r.cursor ≤ r.commands.length
    · refine ⟨hcl, ?_⟩
      have hlen : (r.commands.take r.cursor).length = r.cursor := by
        simp [List.length_take]; omega
      simp only [Record.applyCore, happ, hcl, if_true] at hok
      rcases hlast : (r.commands.take r.cursor).getLast? with _ | last
      · have hc0 : r.cursor = 0 := by
          rw [List.getLast?_eq_none_iff] at hlast
          rw [hlast] at hlen
          simpa using hlen.symm
        have hev : ¬ (r.limit = r.cursor) := by omega
        simp only [hlast, hev, if_false, Option.some.injEq,
          ApplyResult.ok.injEq] at hok
        obtain ⟨h1, -, -, -⟩ := hok
        subst h1
        refine ⟨?_, ?_, ?_, ?_⟩ <;> simp <;> omega
      · have hne : (r.commands.take r.cursor).length ≠ 0 := by
          intro h
          rw [List.length_eq_zero.mp h] at hlast
          simp at hlast
        rcases hsv : r.isSaved with _ | _
        · rcases hm : impl.mergeC last c' with ⟨last', mc⟩
          rcases mc with _ | c2
          · simp only [hlast, hsv, hm, Bool.not_false, if_true,
              Option.some.injEq, ApplyResult.ok.injEq] at hok
            obtain ⟨h1, -, -, -⟩ := hok
            subst h1
            refine ⟨?_, ?_, ?_, ?_⟩ <;> simp <;> omega
          · by_cases hev : r.limit = r.cursor
            · simp only [hlast, hsv, hm, Bool.not_false, if_true, hev] at hok
              simp only [Option.some.injEq, ApplyResult.ok.injEq] at hok
              obtain ⟨h1, -, -, -⟩ := hok
              subst h1
              refine ⟨?_, ?_, ?_, ?_⟩ <;> simp <;> omega
            · simp only [hlast, hsv, hm, Bool.not_false, if_true, hev,
                if_false] at hok
              simp only [Option.some.injEq, ApplyResult.ok.injEq] at hok
              obtain ⟨h1, -, -, -⟩ := hok
              subst h1
              refine ⟨?_, ?_, ?_, ?_⟩ <;> simp <;> omega
        · by_cases hev : r.limit = r.cursor
          · simp only [hlast, hsv, Bool.not_true, if_false, hev] at hok
            simp only [Option.some.injEq, ApplyResult.ok.injEq] at hok
            obtain ⟨h1, -, -, -⟩ := hok
            subst h1
            refine ⟨?_, ?_, ?_, ?_⟩ <;> simp <;> omega
          · simp only [hlast, hsv, Bool.not_true, if_false, hev] at hok
            simp only [Option.some.injEq, ApplyResult.ok.injEq] at hok
            obtain ⟨h1, -, -, -⟩ := hok
            subst h1
            refine ⟨?_, ?_, ?_, ?_⟩ <;> simp <;> omega
    · simp [Record.applyCore, happ, hcl] at hok
  · simp [Record.applyCore, happ] at hok

/-- A failing `Record::apply` changes nothing but the receiver. -/
theorem applyCore_error_facts (impl : CommandImpl R C ε) (r : Record R C)
    (cmd : C) {r' : Record R C} {c' : C} {e : ε}
    (hok : r.applyCore impl cmd = some (.error r' c' e)) :
    r'.commands = r.commands ∧ r'.cursor = r.cursor ∧ r'.limit = r.limit ∧
      r'.saved = r.saved := by
  rcases happ : impl.applyC cmd r.receiver with ⟨c2, recv', e2⟩
  rcases e2 with _ | e2
  · by_cases hcl : r.cursor ≤ r.commands.length
    · simp [Record.applyCore, happ, hcl] at hok
    · simp [Record.applyCore, happ, hcl] at hok
  · simp only [Record.applyCore, happ, Option.some.injEq,
      ApplyResult.error.injEq] at hok
    obtain ⟨h1, -, -⟩ := hok
    subst h1
    exact ⟨rfl, rfl, rfl, rfl⟩

/-- A successful `Record::undo` keeps the length, limit and saved marker
and moves the cursor down by one. -/
theorem undoStep_ok_facts (impl : CommandImpl R C ε) {r r' : Record R C}
    {s : List Signal} (h : r.undoStep impl = some (.ok r' s)) :
    r'.commands.length = r.commands.length ∧ r'.limit = r.limit ∧
      r'.cursor + 1 = r.cursor ∧ r'.saved = r.saved := by
  simp only [Record.undoStep] at h
  split at h
  · simp at h
  · rename_i h0
    split at h
    · simp at h
    · rename_i entry hget
      split at h
      · simp at h
      · rename_i cmd' recv' hu
        simp only [Option.some.injEq, StepResult.ok.injEq] at h
        obtain ⟨h1, -⟩ := h
        subst h1
        refine ⟨by simp, rfl, ?_, rfl⟩
        show r.cursor - 1 + 1 = r.cursor
        omega

/-- A failing `Record::undo` shrinks the log by one entry and keeps the
cursor, limit and saved marker. -/
theorem undoStep_error_facts (impl : CommandImpl R C ε) {r r' : Record R C}
    {c' : C} {e : ε} (h : r.undoStep impl = some (.error r' c' e)) :
    r'.commands.length ≤ r.commands.length ∧ r'.limit = r.limit ∧
      r'.cursor = r.cursor ∧ r'.saved = r.saved := by
  simp only [Record.undoStep] at h
  split at h
  · simp at h
  · rename_i h0
    split at h
    · simp at h
    · rename_i entry hget
      split at h
      · rename_i cmd' recv' e2 hu
        simp only [Option.some.injEq, StepResult.error.injEq] at h
        obtain ⟨h1, -, -⟩ := h
        subst h1
        refine ⟨?_, rfl, rfl, rfl⟩
        show (r.commands.eraseIdx (r.cursor - 1)).length ≤ r.commands.length
        rw [List.length_eraseIdx]
        split <;> omega
      · simp at h

/-- A successful `Record::redo` keeps the length, limit and saved marker
and moves the cursor up by one. -/
theorem redoStep_ok_facts (impl : CommandImpl R C ε) {r r' : Record R C}
    {s : List Signal} (h : r.redoStep impl = .ok r' s) :
    r'.commands.length = r.commands.length ∧ r'.limit = r.limit ∧
      r'.cursor = r.cursor + 1 ∧ r'.saved = r.saved ∧
      r.cursor < r.commands.length := by
  simp only [Record.redoStep] at h
  split at h
  · rename_i hlt
    split at h
    · simp at h
    · rename_i cmd' recv' hu
      simp only [StepResult.ok.injEq] at h
      obtain ⟨h1, -⟩ := h
      subst h1
      exact ⟨by simp, rfl, rfl, rfl, hlt⟩
  · simp at h

/-- A failing `Record::redo` shrinks the log by one entry and keeps the
cursor, limit and saved marker. -/
theorem redoStep_error_facts (impl : CommandImpl R C ε) {r r' : Record R C}
    {c' : C} {e : ε} (h : r.redoStep impl = .error r' c' e) :
    r'.commands.length ≤ r.commands.length ∧ r'.limit = r.limit ∧
      r'.cursor = r.cursor ∧ r'.saved = r.saved := by
  simp only [Record.redoStep] at h
  split at h
  · rename_i hlt
    split at h
    · rename_i cmd' recv' e2 hu
      simp only [StepResult.error.injEq] at h
      obtain ⟨h1, -, -⟩ := h
      subst h1
      refine ⟨?_, rfl, rfl, rfl⟩
      show (r.commands.eraseIdx r.cursor).length ≤ r.commands.length
      rw [List.length_eraseIdx]
      split <;> omega
    · simp at h
  · simp at h

/-- The `go_to` walk never grows the log and never changes the limit. -/
theorem goToLoop_facts (impl : CommandImpl R C ε) (redoDir : Bool)
    (target : Nat) :
    ∀ (fuel : Nat) (r r' : Record R C) (res : Option (C × ε)),
      Record.goToLoop impl redoDir target fuel r = some (r', res) →
      r'.commands.length ≤ r.commands.length ∧ r'.limit = r.limit := by
  intro fuel
  induction fuel with
  | zero =>
    intro r r' res h
    simp only [Record.goToLoop] at h
    split at h
    · simp only [Option.some.injEq, Prod.mk.injEq] at h
      obtain ⟨h1, -⟩ := h
      subst h1
      exact ⟨le_refl _, rfl⟩
    · simp at h
  | succ fuel ih =>
    intro r r' res h
    simp only [Record.goToLoop] at h
    split at h
    · simp only [Option.some.injEq, Prod.mk.injEq] at h
      obtain ⟨h1, -⟩ := h
      subst h1
      exact ⟨le_refl _, rfl⟩
    · split at h
      · split at h
        · rename_i r₂ s₂ hstep
          have h2 := redoStep_ok_facts impl hstep
          have h3 := ih _ _ _ h
          exact ⟨by omega, h3.2.trans h2.2.1⟩
        · rename_i r₂ c₂ e₂ hstep
          have h2 := redoStep_error_facts impl hstep
          simp only [Option.some.injEq, Prod.mk.injEq] at h
          obtain ⟨h1, -⟩ := h
          subst h1
          exact ⟨h2.1, h2.2.1⟩
        · simp at h
      · split at h
        · simp at h
        · simp at h
        · rename_i r₂ s₂ hstep
          have h2 := undoStep_ok_facts impl hstep
          have h3 := ih _ _ _ h
          exact ⟨by omega, h3.2.trans h2.2.1⟩
        · rename_i r₂ c₂ e₂ hstep
          have h2 := undoStep_error_facts impl hstep
          simp only [Option.some.injEq, Prod.mk.injEq] at h
          obtain ⟨h1, -⟩ := h
          subst h1
          exact ⟨h2.1, h2.2.1⟩

/-- `Record::go_to` never grows the log and never changes the limit,
whether it succeeds or stops at a failing step. -/
theorem goTo_facts (impl : CommandImpl R C ε) (r : Record R C)
    (target : Nat) {out : StepResult R C ε}
    (h : r.goTo impl target = some out) :
    (∀ r' s, out = .ok r' s →
      r'.commands.length ≤ r.commands.length ∧ r'.limit = r.limit) ∧
    (∀ r' c e, out = .error r' c e →
      r'.commands.length ≤ r.commands.length ∧ r'.limit = r.limit) := by
  simp only [Record.goTo] at h
  split at h
  · simp only [Option.some.injEq] at h
    subst h
    constructor
    · intro r' s hx
      simp at hx
    · intro r' c e hx
      simp at hx
  · split at h
    · simp at h
    · rename_i r₂ c₂ e₂ hloop
      have h2 := goToLoop_facts impl _ _ _ _ _ _ hloop
      simp only [Option.some.injEq] at h
      subst h
      constructor
      · intro r' s hx
        simp at hx
      · intro r' c e hx
        simp only [StepResult.error.injEq] at hx
        obtain ⟨h1, -, -⟩ := hx
        subst h1
        exact h2
    · rename_i r₂ hloop
      have h2 := goToLoop_facts impl _ _ _ _ _ _ hloop
      simp only [Option.some.injEq] at h
      subst h
      constructor
      · intro r' s hx
        simp only [StepResult.ok.injEq] at hx
        obtain ⟨h1, -⟩ := hx
        subst h1
        exact h2
      · intro r' c e hx
        simp at hx

/-- `Record::jump_to` never grows the log and never changes the limit. -/
theorem jumpTo_facts (impl : CommandImpl R C ε) (r : Record R C)
    (target : Nat) {out : StepResult R C ε}
    (h : r.jumpTo impl target = some out) :
    (∀ r' s, out = .ok r' s →
      r'.commands.length ≤ r.commands.length ∧ r'.limit = r.limit) ∧
    (∀ r' c e, out = .error r' c e →
      r'.commands.length ≤ r.commands.length ∧ r'.limit = r.limit) := by
  simp only [Record.jumpTo] at h
  split at h
  · simp only [Option.some.injEq] at h
    subst h
    exact ⟨fun r' s hx => by simp at hx, fun r' c e hx => by simp at hx⟩
  · split at h
    · simp only [Option.some.injEq] at h
      subst h
      constructor
      · intro r' s hx
        simp only [StepResult.ok.injEq] at hx
        obtain ⟨h1, -⟩ := hx
        subst h1
        exact ⟨le_refl _, rfl⟩
      · intro r' c e hx
        simp at hx
    · split at h
      · simp at h
      · rename_i r₂ c₂ e₂ heq
        simp only [Option.some.injEq] at h
        subst h
        refine ⟨fun r' s hx => by simp at hx, fun r' c e hx => ?_⟩
        simp only [StepResult.error.injEq] at hx
        obtain ⟨h1, -, -⟩ := hx
        subst h1
        split at heq
        · split at heq
          · simp at heq
          · rename_i hstep
            simp only [Option.some.injEq, Sum.inr.injEq, Prod.mk.injEq]
              at heq
            obtain ⟨h2, -, -⟩ := heq
            subst h2
            have h3 := redoStep_error_facts impl hstep
            exact ⟨by simpa using h3.1, h3.2.1⟩
          · simp at heq
        · split at heq
          · simp at heq
          · simp at heq
          · simp at heq
          · rename_i hstep
            simp only [Option.some.injEq, Sum.inr.injEq, Prod.mk.injEq]
              at heq
            obtain ⟨h2, -, -⟩ := heq
            subst h2
            have h3 := undoStep_error_facts impl hstep
            exact ⟨by simpa using h3.1, h3.2.1⟩
      · rename_i r₂ heq
        simp only [Option.some.injEq] at h
        subst h
        refine ⟨fun r' s hx => ?_, fun r' c e hx => by simp at hx⟩
        simp only [StepResult.ok.injEq] at hx
        obtain ⟨h1, -⟩ := hx
        subst h1
        split at heq
        · split at heq
          · rename_i hstep
            simp only [Option.some.injEq, Sum.inl.injEq] at heq
            subst heq
            have h3 := redoStep_ok_facts impl hstep
            exact ⟨by simpa using le_of_eq h3.1, h3.2.1⟩
          · simp at heq
          · simp at heq
        · split at heq
          · simp at heq
          · simp at heq
          · rename_i hstep
            simp only [Option.some.injEq, Sum.inl.injEq] at heq
            subst heq
            have h3 := undoStep_ok_facts impl hstep
            exact ⟨by simpa using le_of_eq h3.1, h3.2.1⟩
          · simp at heq

/-- The record states reachable through the public mutating operations of
`record.rs`, starting from `Record::new` or a built record (including the
states left behind by failing undo/redo/go_to/jump_to steps). -/
inductive Reachable (impl : CommandImpl R C ε) : Record R C → Prop where
  | new (ρ : R) : Reachable impl (Record.new ρ)
  | build {r : Record R C} (ρ : R) (lim : Nat) (sb : Bool)
      (h : Record.build ρ lim sb = some r) : Reachable impl r
  | applyOk {r r' : Record R C} {cmd : C} {m : Bool} {t : List C}
      {s : List Signal} : Reachable impl r →
      r.applyCore impl cmd = some (.ok r' m t s) → Reachable impl r'
  | applyErr {r r' : Record R C} {cmd c' : C} {e : ε} : Reachable impl r →
      r.applyCore impl cmd = some (.error r' c' e) → Reachable impl r'
  | undoOk {r r' : Record R C} {s : List Signal} : Reachable impl r →
      r.undoStep impl = some (.ok r' s) → Reachable impl r'
  | undoErr {r r' : Record R C} {c' : C} {e : ε} : Reachable impl r →
      r.undoStep impl = some (.error r' c' e) → Reachable impl r'
  | redoOk {r r' : Record R C} {s : List Signal} : Reachable impl r →
      r.redoStep impl = .ok r' s → Reachable impl r'
  | redoErr {r r' : Record R C} {c' : C} {e : ε} : Reachable impl r →
      r.redoStep impl = .error r' c' e → Reachable impl r'
  | goToOk {r r' : Record R C} {t : Nat} {s : List Signal} :
      Reachable impl r → r.goTo impl t = some (.ok r' s) →
      Reachable impl r'
  | goToErr {r r' : Record R C} {t : Nat} {c' : C} {e : ε} :
      Reachable impl r → r.goTo impl t = some (.error r' c' e) →
      Reachable impl r'
  | jumpToOk {r r' : Record R C} {t : Nat} {s : List Signal} :
      Reachable impl r → r.jumpTo impl t = some (.ok r' s) →
      Reachable impl r'
  | jumpToErr {r r' : Record R C} {t : Nat} {c' : C} {e : ε} :
      Reachable impl r → r.jumpTo impl t = some (.error r' c' e) →
      Reachable impl r'
  | limitSet {r r' : Record R C} {n lim : Nat} {sigs : List Signal} :
      Reachable impl r → r.setLimit n = some (r', lim, sigs) →
      Reachable impl r'
  | savedSet {r : Record R C} (b : Bool) : Reachable impl r →
      Reachable impl (r.setSaved b).1
  | cleared {r : Record R C} : Reachable impl r →
      Reachable impl (r.clear).1

/-- Every reachable record keeps `len(commands) ≤ limit` and a strictly
positive limit. -/
theorem reachable_len_le_limit (impl : CommandImpl R C ε)
    (r : Record R C) (h : Reachable impl r) :
    r.commands.length ≤ r.limit ∧ 0 < r.limit := by
  induction h with
  | new ρ =>
    constructor
    · simp [Record.new]
    · simp [Record.new, USIZE_MAX]
  | build ρ lim sb h =>
    simp only [Record.build] at h
    split at h
    · simp at h
    · rename_i hz
      simp only [Option.some.injEq] at h
      subst h
      simp
      omega
  | applyOk hr hstep ih =>
    have hf := applyCore_ok_facts _ _ _ ih.2 hstep
    omega
  | applyErr hr hstep ih =>
    have hf := applyCore_error_facts _ _ _ hstep
    rw [hf.1, hf.2.2.1]
    exact ih
  | undoOk hr hstep ih =>
    have hf := undoStep_ok_facts _ hstep
    omega
  | undoErr hr hstep ih =>
    have hf := undoStep_error_facts _ hstep
    omega
  | redoOk hr hstep ih =>
    have hf := redoStep_ok_facts _ hstep
    omega
  | redoErr hr hstep ih =>
    have hf := redoStep_error_facts _ hstep
    omega
  | goToOk hr hstep ih =>
    have hf := (goTo_facts _ _ _ hstep).1 _ _ rfl
    omega
  | goToErr hr hstep ih =>
    have hf := (goTo_facts _ _ _ hstep).2 _ _ _ rfl
    omega
  | jumpToOk hr hstep ih =>
    have hf := (jumpTo_facts _ _ _ hstep).1 _ _ rfl
    omega
  | jumpToErr hr hstep ih =>
    have hf := (jumpTo_facts _ _ _ hstep).2 _ _ _ rfl
    omega
  | limitSet hr hstep ih =>
    rename_i r₀ r' n lim sigs
    simp only [Record.setLimit] at hstep
    split at hstep
    · simp at hstep
    · rename_i hz
      split at hstep
      · rename_i hlt
        simp only [Option.some.injEq, Prod.mk.injEq] at hstep
        obtain ⟨h1, -, -⟩ := hstep
        subst h1
        constructor
        · simp
        · simp [List.length_drop]
          omega
      · rename_i hlt
        simp only [Option.some.injEq, Prod.mk.injEq] at hstep
        obtain ⟨h1, -, -⟩ := hstep
        subst h1
        constructor
        · show r₀.commands.length ≤ n
          omega
        · show 0 < n
          omega
  | savedSet b hr ih =>
    rename_i r₀
    simp only [Record.setSaved]
    split
    · exact ih
    · exact ih
  | cleared hr ih =>
    rename_i r₀
    simp only [Record.clear]
    constructor
    · simp
    · exact ih.2

/-- C6: in `Record::apply`, when the merge declines (`No`) and the log
length has reached the limit, the oldest entry is evicted from the front,
the saved marker is decremented (`None` if it pointed at the evicted
slot, via `checked_sub`), and the cursor does not advance; and in every
reachable record state `len(commands) ≤ limit`. -/
theorem c6_eviction_and_limit_invariant :
    (∀ (impl : CommandImpl R C ε) (r : Record R C) (cmd c' : C)
        (recv' : R),
      (∀ a b, impl.mergeC a b = (a, some b)) →
      impl.applyC cmd r.receiver = (c', recv', Option.none) →
      r.cursor ≤ r.commands.length →
      r.limit = r.cursor →
      r.applyCore impl cmd = some (.ok
        ⟨(r.commands.take r.cursor).tail ++ [c'], recv', r.cursor, r.limit,
          (r.saved.filter fun s => decide (s ≤ r.cursor)).bind
            fun s => checkedSub s 1⟩
        false (r.commands.drop r.cursor)
        ([Signal.cursor r.cursor r.cursor]
          ++ (if r.canRedo then [Signal.redo false] else [])
          ++ (if !r.canUndo then [Signal.undo true] else [])
          ++ (if r.isSaved then [Signal.saved false] else [])))) ∧
    (∀ (impl : CommandImpl R C ε) (r : Record R C),
      Reachable impl r → r.commands.length ≤ r.limit) := by
  constructor
  · intro impl r cmd c' recv' Hm hap hcl hlim
    simp only [Record.applyCore, hap, hcl, if_true]
    rcases hlast : (r.commands.take r.cursor).getLast? with _ | last
    · simp [hlast, hlim]
    · rcases hsv : r.isSaved with _ | _
      · simp [hlast, hsv, Hm, hlim, dropLast_append_of_getLast? hlast]
      · simp [hlast, hsv, hlim]
  · intro impl r h
    exact (reachable_len_le_limit impl r h).1

theorem c6_witness :
    (⟨[()], 7, 1, 1, none⟩ : Record Nat Unit).applyCore IncrImpl () =
      some (.ok ⟨[()], 8, 1, 1, none⟩ false [] [Signal.cursor 1 1]) :=
  c6_eviction_and_limit_invariant.1 IncrImpl ⟨[()], 7, 1, 1, none⟩ () () 8
    (fun _ _ => rfl) rfl (by decide) rfl

theorem take_set_of_le {α : Type} (l : List α) (i n : Nat) (a : α)
    (h : n ≤ i) : (l.set i a).take n = l.take n := by
  apply List.ext_getElem?
  intro j
  rw [List.getElem?_take, List.getElem?_take]
  split
  · rw [List.getElem?_set_ne]
    omega
  · rfl

theorem undoN_succ_back (impl : CommandImpl R C ε) (n : Nat)
    (r : Record R C) :
    undoN impl (n + 1) r = (undoN impl n r).bind (undoStepO impl) := by
  induction n generalizing r with
  | zero =>
    show (undoStepO impl r).bind (undoN impl 0) =
      (some r).bind (undoStepO impl)
    rcases hstep : undoStepO impl r with _ | r' <;> simp [undoN, hstep]
  | succ n ih =>
    show (undoStepO impl r).bind (undoN impl (n + 1)) =
      (undoN impl (n + 1) r).bind (undoStepO impl)
    have hdef : undoN impl (n + 1) r =
      (undoStepO impl r).bind (undoN impl n) := rfl
    rcases hstep : undoStepO impl r with _ | r'
    · rw [hdef, hstep]
      simp
    · rw [hdef, hstep]
      simp only [Option.some_bind]
      exact ih r'

/-- C4 (amended): a sequence of `n` successful applies followed by `n`
undos returns the receiver and the cursor to their pre-sequence values,
provided each command's `undo` exactly inverts its `apply`, the commands
never merge (`merge` is the trait-default `No`), and the limit is not
reached during the applies (no eviction). -/
theorem c4_apply_undo_roundtrip (impl : CommandImpl R C ε)
    (Hm : ∀ a b, impl.mergeC a b = (a, some b))
    (Hinv : ∀ c ρ c2 ρ2, impl.applyC c ρ = (c2, ρ2, Option.none) →
      ∃ c3, impl.undoC c2 ρ2 = (c3, ρ, Option.none)) :
    ∀ (cs : List C) (r r₁ : Record R C),
      r.cursor ≤ r.commands.length →
      r.cursor + cs.length ≤ r.limit →
      applyN impl cs r = some r₁ →
      ∃ r₂, undoN impl cs.length r₁ = some r₂ ∧
        r₂.receiver = r.receiver ∧ r₂.cursor = r.cursor ∧
        r₂.cursor ≤ r₂.commands.length ∧
        r₂.commands.take r.cursor = r.commands.take r.cursor := by
  intro cs
  induction cs with
  | nil =>
    intro r r₁ hcl hfit happly
    simp only [applyN, Option.some.injEq] at happly
    subst happly
    exact ⟨_, rfl, rfl, rfl, hcl, rfl⟩
  | cons c cs ih =>
    intro r r₁ hcl hfit happly
    rcases hac : impl.applyC c r.receiver with ⟨c', recv', e⟩
    rcases e with _ | e
    · have hlim : r.limit ≠ r.cursor := by
        simp only [List.length_cons] at hfit
        omega
      have hstep := applyCore_noMerge impl r c c' recv' Hm hac hcl hlim
      have happly' : applyN impl cs
          ⟨r.commands.take r.cursor ++ [c'], recv', r.cursor + 1, r.limit,
            r.saved.filter fun s => decide (s ≤ r.cursor)⟩ = some r₁ := by
        simpa only [applyN, hstep] using happly
      have htakelen : (r.commands.take r.cursor).length = r.cursor := by
        simp [List.length_take]
        omega
      have hcl' : r.cursor + 1 ≤ (r.commands.take r.cursor ++ [c']).length := by
        simp [htakelen]
      obtain ⟨r₂', hundo, hrecv, hcur, hcl₂, htake⟩ :=
        ih ⟨r.commands.take r.cursor ++ [c'], recv', r.cursor + 1, r.limit,
            r.saved.filter fun s => decide (s ≤ r.cursor)⟩ r₁ hcl'
          (by show r.cursor + 1 + cs.length ≤ r.limit
              simp only [List.length_cons] at hfit
              omega) happly'
      dsimp only at hrecv hcur hcl₂ htake
      have htakefull : r₂'.commands.take (r.cursor + 1) =
          r.commands.take r.cursor ++ [c'] := by
        have : (r.commands.take r.cursor ++ [c']).take (r.cursor + 1) =
            r.commands.take r.cursor ++ [c'] := by
          apply List.take_of_length_le
          simp [htakelen]
        simpa only [this] using htake
      have hlen₂ : r.cursor + 1 ≤ r₂'.commands.length := by omega
      have hget : r₂'.commands[r.cursor]? = some c' := by
        have h1 : (r₂'.commands.take (r.cursor + 1))[r.cursor]? =
            r₂'.commands[r.cursor]? := by
          rw [List.getElem?_take]
          simp
        rw [← h1, htakefull, List.getElem?_append_right (by omega)]
        simp [htakelen]
      obtain ⟨c3, hu⟩ := Hinv c r.receiver c' recv' hac
      have hu₂ : impl.undoC c' r₂'.receiver = (c3, r.receiver, Option.none) := by
        rw [hrecv]
        exact hu
      have hget₂ : r₂'.commands[r₂'.cursor - 1]? = some c' := by
        rw [hcur]
        simpa using hget
      have hstep₂ := undoStep_ok impl r₂' c' c3 r.receiver
        (by omega) hget₂ hu₂
      refine ⟨⟨r₂'.commands.set (r₂'.cursor - 1) c3, r.receiver,
        r₂'.cursor - 1, r₂'.limit, r₂'.saved⟩, ?_, rfl, ?_, ?_, ?_⟩
      · rw [show (c :: cs).length = cs.length + 1 from rfl,
          undoN_succ_back, hundo]
        simp [undoStepO, hstep₂]
      · show r₂'.cursor - 1 = r.cursor
        omega
      · show r₂'.cursor - 1 ≤ (r₂'.commands.set (r₂'.cursor - 1) c3).length
        simp only [List.length_set]
        omega
      · show (r₂'.commands.set (r₂'.cursor - 1) c3).take r.cursor =
          r.commands.take r.cursor
        rw [take_set_of_le _ _ _ _ (by omega)]
        have h2 : r₂'.commands.take r.cursor =
            (r₂'.commands.take (r.cursor + 1)).take r.cursor := by
          rw [List.take_take]
          simp
        have h3 : (r.commands.take r.cursor ++ [c']).take r.cursor =
            r.commands.take r.cursor := by
          have h4 := List.take_left (r.commands.take r.cursor) [c']
          rwa [htakelen] at h4
        rw [h2, htakefull, h3]
    · simp [applyN, Record.applyCore, hac] at happly

theorem c4_witness :
    ∃ r₂, undoN IncrImpl 2
        (⟨[(), ()], 2, 2, USIZE_MAX, some 0⟩ : Record Nat Unit) = some r₂ ∧
      r₂.receiver = (Record.new 0 : Record Nat Unit).receiver ∧
      r₂.cursor = (Record.new 0 : Record Nat Unit).cursor ∧
      r₂.cursor ≤ r₂.commands.length ∧
      r₂.commands.take (Record.new 0 : Record Nat Unit).cursor =
        (Record.new 0 : Record Nat Unit).commands.take
          (Record.new 0 : Record Nat Unit).cursor :=
  c4_apply_undo_roundtrip IncrImpl (fun _ _ => rfl)
    (by
      intro c ρ c2 ρ2 h
      refine ⟨(), ?_⟩
      have h2 : ρ2 = ρ + 1 := by
        have h3 := congrArg (fun p => p.2.1) h
        simpa [IncrImpl] using h3.symm
      subst h2
      simp [IncrImpl])
    [(), ()] (Record.new 0) ⟨[(), ()], 2, 2, USIZE_MAX, some 0⟩
    (by decide) (by decide) (by decide)

/-- C4 (counterexample to the claim as stated): on a record built with
`limit = 1`, two successful applies of the exact-inverse increment
command (no merging) are followed by two `undo` calls — the second is a
`None` no-op because the first apply's entry was evicted — after which
the receiver is `1`, not its pre-sequence value `0` (the cursor does
return to `0`). -/
theorem c4_counterexample :
    Record.build 0 1 true = some (⟨[], 0, 0, 1, some 0⟩ : Record Nat Unit) ∧
      applyN IncrImpl [(), ()] (⟨[], 0, 0, 1, some 0⟩ : Record Nat Unit) =
        some ⟨[()], 2, 1, 1, none⟩ ∧
      undoStepO IncrImpl (⟨[()], 2, 1, 1, none⟩ : Record Nat Unit) =
        some ⟨[()], 1, 0, 1, none⟩ ∧
      (⟨[()], 1, 0, 1, none⟩ : Record Nat Unit).undoStep IncrImpl =
        some .none ∧
      (⟨[()], 1, 0, 1, none⟩ : Record Nat Unit).receiver ≠
        (⟨[], 0, 0, 1, some 0⟩ : Record Nat Unit).receiver := by
  decide

/-- The formalization of C1's precondition "each command's undo exactly
inverts its apply/redo": the command methods act as pure, mutually
inverse functions `fwd`/`bwd` on the receiver and never fail or mutate
the command, and `merge` is the trait default `No`. -/
structure PureImpl (impl : CommandImpl R C ε) (fwd bwd : C → R → R) :
    Prop where
  happly : ∀ c ρ, impl.applyC c ρ = (c, fwd c ρ, Option.none)
  hundo : ∀ c ρ, impl.undoC c ρ = (c, bwd c ρ, Option.none)
  hredo : ∀ c ρ, impl.redoC c ρ = (c, fwd c ρ, Option.none)
  hbf : ∀ c ρ, bwd c (fwd c ρ) = ρ
  hfb : ∀ c ρ, fwd c (bwd c ρ) = ρ
  hmerge : ∀ a b, impl.mergeC a b = (a, some b)

/-- The receiver obtained by replaying the first `k` logged commands
forward from a base receiver state. -/
def replay (fwd : C → R → R) (cs : List C) (k : Nat) (base : R) : R :=
  (cs.take k).foldl (fun ρ c => fwd c ρ) base

theorem replay_take_agree (fwd : C → R → R) {cs₁ cs₂ : List C} (k : Nat)
    (base : R) (h : cs₁.take k = cs₂.take k) :
    replay fwd cs₁ k base = replay fwd cs₂ k base := by
  unfold replay
  rw [h]

theorem replay_succ (fwd : C → R → R) {cs : List C} {k : Nat} {entry : C}
    (base : R) (hget : cs[k]? = some entry) :
    replay fwd cs (k + 1) base = fwd entry (replay fwd cs k base) := by
  unfold replay
  rw [List.take_succ, hget]
  simp

/-- Under a pure command implementation, `undo` always succeeds when the
cursor is positive and in range, leaving the log untouched. -/
theorem pure_undoStep (impl : CommandImpl R C ε) (fwd bwd : C → R → R)
    (P : PureImpl impl fwd bwd) (r : Record R C) {entry : C}
    (h0 : r.cursor ≠ 0) (hget : r.commands[r.cursor - 1]? = some entry) :
    ∃ s, r.undoStep impl = some (.ok
      ⟨r.commands, bwd entry r.receiver, r.cursor - 1, r.limit, r.saved⟩
      s) := by
  have h := undoStep_ok impl r entry entry (bwd entry r.receiver) h0 hget
    (P.hundo entry r.receiver)
  rw [listSet_getElem?_self hget] at h
  exact ⟨_, h⟩

/-- Under a pure command implementation, `redo` always succeeds when the
cursor is below the log length, leaving the log untouched. -/
theorem pure_redoStep (impl : CommandImpl R C ε) (fwd bwd : C → R → R)
    (P : PureImpl impl fwd bwd) (r : Record R C) {entry : C}
    (hget : r.commands[r.cursor]? = some entry) :
    ∃ s, r.redoStep impl = .ok
      ⟨r.commands, fwd entry r.receiver, r.cursor + 1, r.limit, r.saved⟩
      s := by
  have hlt : r.cursor < r.commands.length := by
    rcases List.getElem?_eq_some.mp hget with ⟨hlt, -⟩
    exact hlt
  have hgete : r.commands.get ⟨r.cursor, hlt⟩ = entry := by
    have h5 := List.getElem?_eq_getElem hlt
    rw [h5] at hget
    simpa using hget
  have h := redoStep_ok impl r entry (fwd entry r.receiver) hlt
    (by rw [hgete]; exact P.hredo entry r.receiver)
  rw [listSet_getElem?_self hget] at h
  exact ⟨_, h⟩

/-- Under a pure implementation the `go_to` walk in the undo direction
reaches the target exactly, leaving log, limit and saved untouched and
the receiver at the replay of the target prefix. -/
theorem pure_goToLoop_undo (impl : CommandImpl R C ε) (fwd bwd : C → R → R)
    (P : PureImpl impl fwd bwd) (target : Nat) (base : R) :
    ∀ (fuel : Nat) (r : Record R C),
      target ≤ r.cursor → r.cursor ≤ r.commands.length →
      r.cursor - target ≤ fuel →
      r.receiver = replay fwd r.commands r.cursor base →
      Record.goToLoop impl false target fuel r =
        some (⟨r.commands, replay fwd r.commands target base, target,
          r.limit, r.saved⟩, Option.none) := by
  intro fuel
  induction fuel with
  | zero =>
    intro r ht hle hfuel hgood
    have hc : r.cursor = target := by omega
    simp only [Record.goToLoop, hc, if_true]
    rw [← hc, ← hgood]
  | succ fuel ih =>
    intro r ht hle hfuel hgood
    by_cases hc : r.cursor = target
    · simp only [Record.goToLoop, hc, if_true]
      rw [← hc, ← hgood]
    · have h0 : r.cursor ≠ 0 := by omega
      have hlt : r.cursor - 1 < r.commands.length := by omega
      have hget : r.commands[r.cursor - 1]? = some r.commands[r.cursor - 1] :=
        List.getElem?_eq_getElem hlt
      obtain ⟨s, hstep⟩ := pure_undoStep impl fwd bwd P r h0 hget
      have hrecv₂ : bwd r.commands[r.cursor - 1] r.receiver =
          replay fwd r.commands (r.cursor - 1) base := by
        rw [hgood]
        have hsucc : replay fwd r.commands (r.cursor - 1 + 1) base =
            fwd r.commands[r.cursor - 1]
              (replay fwd r.commands (r.cursor - 1) base) :=
          replay_succ fwd base hget
        rw [show r.cursor - 1 + 1 = r.cursor by omega] at hsucc
        rw [hsucc, P.hbf]
      have hrec := ih ⟨r.commands, bwd r.commands[r.cursor - 1] r.receiver,
        r.cursor - 1, r.limit, r.saved⟩ (by show target ≤ r.cursor - 1; omega)
        (by show r.cursor - 1 ≤ r.commands.length; omega)
        (by show r.cursor - 1 - target ≤ fuel; omega) hrecv₂
      simp only [Record.goToLoop, hc, if_false, hstep]
      exact hrec

/-- Under a pure implementation the `go_to` walk in the redo direction
reaches the target exactly. -/
theorem pure_goToLoop_redo (impl : CommandImpl R C ε) (fwd bwd : C → R → R)
    (P : PureImpl impl fwd bwd) (target : Nat) (base : R) :
    ∀ (fuel : Nat) (r : Record R C),
      r.cursor ≤ target → target ≤ r.commands.length →
      target - r.cursor ≤ fuel →
      r.receiver = replay fwd r.commands r.cursor base →
      Record.goToLoop impl true target fuel r =
        some (⟨r.commands, replay fwd r.commands target base, target,
          r.limit, r.saved⟩, Option.none) := by
  intro fuel
  induction fuel with
  | zero =>
    intro r ht hle hfuel hgood
    have hc : r.cursor = target := by omega
    simp only [Record.goToLoop, hc, if_true]
    rw [← hc, ← hgood]
  | succ fuel ih =>
    intro r ht hle hfuel hgood
    by_cases hc : r.cursor = target
    · simp only [Record.goToLoop, hc, if_true]
      rw [← hc, ← hgood]
    · have hlt : r.cursor < r.commands.length := by omega
      have hget : r.commands[r.cursor]? = some r.commands[r.cursor] :=
        List.getElem?_eq_getElem hlt
      obtain ⟨s, hstep⟩ := pure_redoStep impl fwd bwd P r hget
      have hrecv₂ : fwd r.commands[r.cursor] r.receiver =
          replay fwd r.commands (r.cursor + 1) base := by
        rw [hgood, replay_succ fwd base hget]
      have hrec := ih ⟨r.commands, fwd r.commands[r.cursor] r.receiver,
        r.cursor + 1, r.limit, r.saved⟩ (by show r.cursor + 1 ≤ target; omega)
        hle (by show target - (r.cursor + 1) ≤ fuel; omega) hrecv₂
      simp only [Record.goToLoop, hc, if_false, hstep]
      exact hrec

/-- Under a pure implementation `go_to(target)` with an in-range target
always succeeds, placing the cursor exactly at the target and the
receiver at the replay of the target prefix. -/
theorem pure_goTo (impl : CommandImpl R C ε) (fwd bwd : C → R → R)
    (P : PureImpl impl fwd bwd) (r : Record R C) (target : Nat) (base : R)
    (ht : target ≤ r.commands.length)
    (hle : r.cursor ≤ r.commands.length)
    (hgood : r.receiver = replay fwd r.commands r.cursor base) :
    ∃ s, r.goTo impl target = some (.ok
      ⟨r.commands, replay fwd r.commands target base, target, r.limit,
        r.saved⟩ s) := by
  have hng : ¬ (target > r.commands.length) := by omega
  by_cases hdir : target > r.cursor
  · have hdec : decide (target > r.cursor) = true := by
      simp [hdir]
    have hloop := pure_goToLoop_redo impl fwd bwd P target base
      (target - r.cursor) r (by omega) ht (le_refl _) hgood
    refine ⟨(if r.cursor ≠ target then [Signal.cursor r.cursor target]
        else [])
      ++ (if r.isSaved ≠ (⟨r.commands, replay fwd r.commands target base,
            target, r.limit, r.saved⟩ : Record R C).isSaved
          then [Signal.saved (⟨r.commands,
            replay fwd r.commands target base, target, r.limit,
            r.saved⟩ : Record R C).isSaved] else [])
      ++ ((if r.cursor = r.commands.length - 1 then [Signal.redo false]
            else [])
          ++ (if r.cursor = 0 then [Signal.undo true] else [])), ?_⟩
    simp only [Record.goTo, hng, if_false, hdec, if_true, hloop]
  · have hdec : decide (target > r.cursor) = false := by
      simp
      omega
    have hloop := pure_goToLoop_undo impl fwd bwd P target base
      (r.cursor - target) r (by omega) hle (le_refl _) hgood
    refine ⟨(if r.cursor ≠ target then [Signal.cursor r.cursor target]
        else [])
      ++ (if r.isSaved ≠ (⟨r.commands, replay fwd r.commands target base,
            target, r.limit, r.saved⟩ : Record R C).isSaved
          then [Signal.saved (⟨r.commands,
            replay fwd r.commands target base, target, r.limit,
            r.saved⟩ : Record R C).isSaved] else [])
      ++ ((if r.cursor = r.commands.length then [Signal.redo true]
            else [])
          ++ (if r.cursor = 1 then [Signal.undo false] else [])), ?_⟩
    simp only [Record.goTo, hng, if_false, hdec, Bool.false_eq_true,
      hloop]

theorem cpCancelList_append (impl : CommandImpl R C ε)
    (xs ys : List (CpAction C)) :
    ∀ (r : Record R C), cpCancelList impl r (xs ++ ys) =
      match cpCancelList impl r xs with
      | .ok r' => cpCancelList impl r' ys
      | other => other := by
  induction xs with
  | nil => intro r; rfl
  | cons a xs ih =>
    intro r
    rcases hact : cpCancelAction impl r a with r' | ⟨r', c, e⟩ | _
    · have h2 : cpCancelList impl r (a :: xs) = cpCancelList impl r' xs := by
        show (match cpCancelAction impl r a with
          | CancelResult.ok r₂ => cpCancelList impl r₂ xs
          | other => other) = _
        rw [hact]
      have h3 : cpCancelList impl r ((a :: xs) ++ ys) =
          cpCancelList impl r' (xs ++ ys) := by
        show (match cpCancelAction impl r a with
          | CancelResult.ok r₂ => cpCancelList impl r₂ (xs ++ ys)
          | other => other) = _
        rw [hact]
      rw [h2, h3]
      exact ih r'
    · have h2 : cpCancelList impl r (a :: xs) =
          CancelResult.error r' c e := by
        show (match cpCancelAction impl r a with
          | CancelResult.ok r₂ => cpCancelList impl r₂ xs
          | other => other) = _
        rw [hact]
      have h3 : cpCancelList impl r ((a :: xs) ++ ys) =
          CancelResult.error r' c e := by
        show (match cpCancelAction impl r a with
          | CancelResult.ok r₂ => cpCancelList impl r₂ (xs ++ ys)
          | other => other) = _
        rw [hact]
      rw [h2, h3]
    · have h2 : cpCancelList impl r (a :: xs) = CancelResult.fault := by
        show (match cpCancelAction impl r a with
          | CancelResult.ok r₂ => cpCancelList impl r₂ xs
          | other => other) = _
        rw [hact]
      have h3 : cpCancelList impl r ((a :: xs) ++ ys) =
          CancelResult.fault := by
        show (match cpCancelAction impl r a with
          | CancelResult.ok r₂ => cpCancelList impl r₂ (xs ++ ys)
          | other => other) = _
        rw [hact]
      rw [h2, h3]

/-- Cancelling an `Apply(v)` action from the state an apply produced
restores log, cursor and receiver. -/
theorem cancel_apply_action (impl : CommandImpl R C ε)
    (fwd bwd : C → R → R) (P : PureImpl impl fwd bwd)
    (s : Record R C) (commands₀ : List C) (k : Nat) (c : C) (base : R)
    (hk : k ≤ commands₀.length)
    (hcmds : s.commands = commands₀.take k ++ [c])
    (hcur : s.cursor = k + 1)
    (hrecv : s.receiver = fwd c (replay fwd commands₀ k base)) :
    cpCancelAction impl s (.apply (commands₀.drop k)) =
      .ok ⟨commands₀, replay fwd commands₀ k base, k, s.limit,
        s.saved⟩ := by
  have htk : (commands₀.take k).length = k := by
    simp [List.length_take]
    omega
  have hget : s.commands[s.cursor - 1]? = some c := by
    rw [hcmds, hcur]
    simp only [Nat.add_sub_cancel]
    rw [List.getElem?_append_right (by omega)]
    simp [htk]
  obtain ⟨sig, hstep⟩ := pure_undoStep impl fwd bwd P s
    (by omega) hget
  show (match (match s.undoStep impl with
      | Option.none => CancelResult.fault
      | some (.error r' c e) => CancelResult.error r' c e
      | some (.ok r' _) => CancelResult.ok r'
      | some .none => CancelResult.ok s) with
    | CancelResult.ok r' =>
      CancelResult.ok { r' with
        commands := r'.commands.take r'.cursor ++ commands₀.drop k }
    | other => other) = _
  rw [hstep]
  show CancelResult.ok ⟨s.commands.take (s.cursor - 1) ++ commands₀.drop k,
      bwd c s.receiver, s.cursor - 1, s.limit, s.saved⟩ = _
  simp only [CancelResult.ok.injEq, Record.mk.injEq]
  refine ⟨?_, ?_, ?_, trivial, trivial⟩
  · rw [hcmds, hcur]
    simp only [Nat.add_sub_cancel]
    have h4 := List.take_left (commands₀.take k) [c]
    rw [htk] at h4
    rw [h4, List.take_append_drop]
  · rw [hrecv, P.hbf]
  · omega

/-- Cancelling an `Undo` action (a `redo` call) from the state a
successful undo produced restores log, cursor and receiver. -/
theorem cancel_undo_action (impl : CommandImpl R C ε)
    (fwd bwd : C → R → R) (P : PureImpl impl fwd bwd)
    (s : Record R C) (commands₀ : List C) (k : Nat) (base : R)
    (hk1 : 1 ≤ k) (hk : k ≤ commands₀.length)
    (hcmds : s.commands = commands₀)
    (hcur : s.cursor = k - 1)
    (hrecv : s.receiver = replay fwd commands₀ (k - 1) base) :
    cpCancelAction impl s .undo =
      .ok ⟨commands₀, replay fwd commands₀ k base, k, s.limit,
        s.saved⟩ := by
  have hlt : k - 1 < commands₀.length := by omega
  have hget : s.commands[s.cursor]? = some commands₀[k - 1] := by
    rw [hcmds, hcur]
    exact List.getElem?_eq_getElem hlt
  obtain ⟨sig, hstep⟩ := pure_redoStep impl fwd bwd P s hget
  show (match s.redoStep impl with
    | .error r' c e => CancelResult.error r' c e
    | .ok r' _ => CancelResult.ok r'
    | .none => CancelResult.ok s) = _
  rw [hstep]
  show CancelResult.ok ⟨s.commands, fwd commands₀[k - 1] s.receiver,
      s.cursor + 1, s.limit, s.saved⟩ = _
  simp only [CancelResult.ok.injEq, Record.mk.injEq]
  refine ⟨hcmds, ?_, by omega, trivial, trivial⟩
  rw [hrecv]
  have hs := replay_succ fwd base (List.getElem?_eq_getElem hlt)
  rw [show k - 1 + 1 = k by omega] at hs
  exact hs.symm

/-- Cancelling a `Redo` action (an `undo` call) from the state a
successful redo produced restores log, cursor and receiver. -/
theorem cancel_redo_action (impl : CommandImpl R C ε)
    (fwd bwd : C → R → R) (P : PureImpl impl fwd bwd)
    (s : Record R C) (commands₀ : List C) (k : Nat) (base : R)
    (hk : k < commands₀.length)
    (hcmds : s.commands = commands₀)
    (hcur : s.cursor = k + 1)
    (hrecv : s.receiver = replay fwd commands₀ (k + 1) base) :
    cpCancelAction impl s .redo =
      .ok ⟨commands₀, replay fwd commands₀ k base, k, s.limit,
        s.saved⟩ := by
  have hget : s.commands[s.cursor - 1]? = some commands₀[k] := by
    rw [hcmds, hcur]
    simp only [Nat.add_sub_cancel]
    exact List.getElem?_eq_getElem hk
  obtain ⟨sig, hstep⟩ := pure_undoStep impl fwd bwd P s (by omega) hget
  show (match s.undoStep impl with
    | Option.none => CancelResult.fault
    | some (.error r' c e) => CancelResult.error r' c e
    | some (.ok r' _) => CancelResult.ok r'
    | some .none => CancelResult.ok s) = _
  rw [hstep]
  show CancelResult.ok ⟨s.commands, bwd commands₀[k] s.receiver,
      s.cursor - 1, s.limit, s.saved⟩ = _
  simp only [CancelResult.ok.injEq, Record.mk.injEq]
  refine ⟨hcmds, ?_, by omega, trivial, trivial⟩
  rw [hrecv, replay_succ fwd base (List.getElem?_eq_getElem hk), P.hbf]

/-- Cancelling a `GoTo(k)` action from any in-range state restores log,
cursor and receiver. -/
theorem cancel_goTo_action (impl : CommandImpl R C ε)
    (fwd bwd : C → R → R) (P : PureImpl impl fwd bwd)
    (s : Record R C) (commands₀ : List C) (k t : Nat) (base : R)
    (hk : k ≤ commands₀.length) (htl : t ≤ commands₀.length)
    (hcmds : s.commands = commands₀)
    (hcur : s.cursor = t)
    (hrecv : s.receiver = replay fwd commands₀ t base) :
    cpCancelAction impl s (.goTo k) =
      .ok ⟨commands₀, replay fwd commands₀ k base, k, s.limit,
        s.saved⟩ := by
  obtain ⟨sig, hstep⟩ := pure_goTo impl fwd bwd P s k base
    (by rw [hcmds]; exact hk) (by rw [hcmds, hcur]; exact htl)
    (by rw [hrecv, hcmds, hcur])
  show (match s.goTo impl k with
    | Option.none => CancelResult.fault
    | some (.error r' c e) => CancelResult.error r' c e
    | some (.ok r' _) => CancelResult.ok r'
    | some .none => CancelResult.ok s) = _
  rw [hstep]
  show CancelResult.ok ⟨s.commands, replay fwd s.commands k base, k,
      s.limit, s.saved⟩ = _
  simp only [CancelResult.ok.injEq, Record.mk.injEq]
  exact ⟨hcmds, by rw [hcmds], trivial, trivial, trivial⟩

theorem cancelResult_match_id (x : CancelResult R C ε) :
    (match x with
      | CancelResult.ok r₃ => CancelResult.ok r₃
      | other => other) = x := by
  rcases x with r₃ | ⟨r₃, c, e⟩ | _ <;> rfl

/-- `cancel` of a stack with one more (earlier) pushed action first
unwinds the later actions, then that action. -/
theorem cpCancel_cons (impl : CommandImpl R C ε) (r₁ : Record R C)
    (a : CpAction C) (stack : List (CpAction C)) :
    cpCancel impl r₁ (a :: stack) =
      match cpCancel impl r₁ stack with
      | .ok r₂ => cpCancelAction impl r₂ a
      | other => other := by
  show cpCancelList impl r₁ (a :: stack).reverse = _
  rw [List.reverse_cons, cpCancelList_append]
  rcases h : cpCancelList impl r₁ stack.reverse with r₂ | ⟨r₂, c, e⟩ | _
  · show cpCancelList impl r₂ [a] = _
    show (match cpCancelAction impl r₂ a with
      | CancelResult.ok r₃ => cpCancelList impl r₃ []
      | other => other) = _
    rw [show cpCancel impl r₁ stack = cpCancelList impl r₁ stack.reverse
      from rfl, h]
    exact cancelResult_match_id _
  · rw [show cpCancel impl r₁ stack = cpCancelList impl r₁ stack.reverse
      from rfl, h]
  · rw [show cpCancel impl r₁ stack = cpCancelList impl r₁ stack.reverse
      from rfl, h]

theorem foldl_fwd_bwd (fwd bwd : C → R → R)
    (hfb : ∀ c ρ, fwd c (bwd c ρ) = ρ) :
    ∀ (l : List C) (ρ : R),
      l.foldl (fun a c => fwd c a)
        (l.reverse.foldl (fun a c => bwd c a) ρ) = ρ := by
  intro l
  induction l with
  | nil => intro ρ; rfl
  | cons c t ih =>
    intro ρ
    rw [List.reverse_cons, List.foldl_append]
    show t.foldl (fun a c => fwd c a)
      (fwd c ([c].foldl (fun a c => bwd c a)
        (t.reverse.foldl (fun a c => bwd c a) ρ))) = ρ
    show t.foldl (fun a c => fwd c a)
      (fwd c (bwd c (t.reverse.foldl (fun a c => bwd c a) ρ))) = ρ
    rw [hfb]
    exact ih ρ

/-- Main induction for C1: a checkpointed run of successful calls over a
pure command implementation can always be cancelled, and cancelling
restores log, cursor, receiver and limit. -/
theorem cpRun_cancel_aux (impl : CommandImpl R C ε) (fwd bwd : C → R → R)
    (P : PureImpl impl fwd bwd) :
    ∀ (ops : List (CpOp C)) (r r₁ : Record R C)
      (stack : List (CpAction C)) (base : R),
      r.receiver = replay fwd r.commands r.cursor base →
      r.cursor ≤ r.commands.length →
      r.commands.length + ops.length ≤ r.limit →
      cpRun impl r ops = some (r₁, stack) →
      ∃ r₂, cpCancel impl r₁ stack = .ok r₂ ∧
        r₂.commands = r.commands ∧ r₂.cursor = r.cursor ∧
        r₂.receiver = r.receiver ∧ r₂.limit = r.limit := by
  intro ops
  induction ops with
  | nil =>
    intro r r₁ stack base hgood hle hfit hrun
    simp only [cpRun, Option.some.injEq, Prod.mk.injEq] at hrun
    obtain ⟨h1, h2⟩ := hrun
    subst h1
    subst h2
    exact ⟨r, rfl, rfl, rfl, rfl, rfl⟩
  | cons op ops ih =>
    intro r r₁ stack base hgood hle hfit hrun
    rcases hcp : cpStep impl r op with _ | ⟨r', a⟩
    · simp only [cpRun, hcp] at hrun
      exact Option.noConfusion hrun
    · simp only [cpRun, hcp] at hrun
      rcases hrun2 : cpRun impl r' ops with _ | ⟨r₁', stack'⟩
      · rw [hrun2] at hrun
        simp at hrun
      · rw [hrun2] at hrun
        simp only [Option.some.injEq, Prod.mk.injEq] at hrun
        obtain ⟨hr1, hstk⟩ := hrun
        subst hr1
        subst hstk
        cases op with
        | apply c =>
          have hlim : r.limit ≠ r.cursor := by
            simp only [List.length_cons] at hfit
            omega
          have happly := applyCore_noMerge impl r c c (fwd c r.receiver)
            P.hmerge (P.happly c r.receiver) hle hlim
          have hcp' : cpStep impl r (.apply c) =
              some (⟨r.commands.take r.cursor ++ [c], fwd c r.receiver,
                r.cursor + 1, r.limit,
                r.saved.filter fun s => decide (s ≤ r.cursor)⟩,
                .apply (r.commands.drop r.cursor)) := by
            simp only [cpStep, happly]
          rw [hcp'] at hcp
          simp only [Option.some.injEq, Prod.mk.injEq] at hcp
          obtain ⟨hr', ha⟩ := hcp
          subst hr'
          subst ha
          have htk : (r.commands.take r.cursor).length = r.cursor := by
            simp [List.length_take]
            omega
          have hgetc : (r.commands.take r.cursor ++ [c])[r.cursor]? =
              some c := by
            rw [List.getElem?_append_right (by omega)]
            simp [htk]
          have hgood' : (fwd c r.receiver) =
              replay fwd (r.commands.take r.cursor ++ [c]) (r.cursor + 1)
                base := by
            rw [replay_succ fwd base hgetc]
            congr 1
            rw [hgood]
            apply replay_take_agree
            have h4 := List.take_left (r.commands.take r.cursor) [c]
            rw [htk] at h4
            rw [h4]
          obtain ⟨r₂', hcanc', hcom', hcur', hrecv', hlim'⟩ :=
            ih ⟨r.commands.take r.cursor ++ [c], fwd c r.receiver,
              r.cursor + 1, r.limit,
              r.saved.filter fun s => decide (s ≤ r.cursor)⟩ _ stack' base
              hgood'
              (by show r.cursor + 1 ≤ (r.commands.take r.cursor ++ [c]).length
                  simp [htk])
              (by show (r.commands.take r.cursor ++ [c]).length + ops.length
                    ≤ r.limit
                  rw [List.length_append, htk]
                  simp only [List.length_cons] at hfit
                  simp only [List.length_singleton]
                  omega)
              hrun2
          rw [cpCancel_cons, hcanc']
          show ∃ r₂, cpCancelAction impl r₂'
              (CpAction.apply (r.commands.drop r.cursor)) =
              CancelResult.ok r₂ ∧ r₂.commands = r.commands ∧
              r₂.cursor = r.cursor ∧ r₂.receiver = r.receiver ∧
              r₂.limit = r.limit
          have hca := cancel_apply_action impl fwd bwd P r₂' r.commands
            r.cursor c base hle (by rw [hcom']) (by rw [hcur'])
            (by rw [hrecv']
                show fwd c r.receiver = _
                rw [hgood])
          rw [hca]
          refine ⟨_, rfl, rfl, rfl, ?_, by
            show r₂'.limit = r.limit
            rw [hlim']⟩
          show replay fwd r.commands r.cursor base = r.receiver
          rw [hgood]
        | undo =>
          have h0 : r.cursor ≠ 0 := by
            intro h00
            have hns : r.undoStep impl = some .none := by
              simp [Record.undoStep, h00]
            simp only [cpStep, hns] at hcp
            exact Option.noConfusion hcp
          have hlt : r.cursor - 1 < r.commands.length := by omega
          have hget : r.commands[r.cursor - 1]? =
              some r.commands[r.cursor - 1] := List.getElem?_eq_getElem hlt
          obtain ⟨sig, hstep⟩ := pure_undoStep impl fwd bwd P r h0 hget
          have hcp' : cpStep impl r .undo =
              some (⟨r.commands, bwd r.commands[r.cursor - 1] r.receiver,
                r.cursor - 1, r.limit, r.saved⟩, .undo) := by
            simp only [cpStep, hstep]
          rw [hcp'] at hcp
          simp only [Option.some.injEq, Prod.mk.injEq] at hcp
          obtain ⟨hr', ha⟩ := hcp
          subst hr'
          subst ha
          have hrecv₂ : bwd r.commands[r.cursor - 1] r.receiver =
              replay fwd r.commands (r.cursor - 1) base := by
            rw [hgood]
            have hsucc := replay_succ fwd base hget
            rw [show r.cursor - 1 + 1 = r.cursor by omega] at hsucc
            rw [hsucc, P.hbf]
          obtain ⟨r₂', hcanc', hcom', hcur', hrecv', hlim'⟩ :=
            ih ⟨r.commands, bwd r.commands[r.cursor - 1] r.receiver,
              r.cursor - 1, r.limit, r.saved⟩ _ stack' base hrecv₂
              (by show r.cursor - 1 ≤ r.commands.length
                  omega)
              (by show r.commands.length + ops.length ≤ r.limit
                  simp only [List.length_cons] at hfit
                  omega)
              hrun2
          rw [cpCancel_cons, hcanc']
          show ∃ r₂, cpCancelAction impl r₂' CpAction.undo =
              CancelResult.ok r₂ ∧ r₂.commands = r.commands ∧
              r₂.cursor = r.cursor ∧ r₂.receiver = r.receiver ∧
              r₂.limit = r.limit
          have hca := cancel_undo_action impl fwd bwd P r₂' r.commands
            r.cursor base (by omega) hle (by rw [hcom']) (by rw [hcur'])
            (by rw [hrecv']
                exact hrecv₂)
          rw [hca]
          refine ⟨_, rfl, rfl, rfl, ?_, by
            show r₂'.limit = r.limit
            rw [hlim']⟩
          show replay fwd r.commands r.cursor base = r.receiver
          rw [hgood]
        | redo =>
          have hlt : r.cursor < r.commands.length := by
            by_contra hnc
            have hns : r.redoStep impl = .none := by
              simp only [Record.redoStep, dif_neg hnc]
            simp only [cpStep, hns] at hcp
            exact Option.noConfusion hcp
          have hget : r.commands[r.cursor]? = some r.commands[r.cursor] :=
            List.getElem?_eq_getElem hlt
          obtain ⟨sig, hstep⟩ := pure_redoStep impl fwd bwd P r hget
          have hcp' : cpStep impl r .redo =
              some (⟨r.commands, fwd r.commands[r.cursor] r.receiver,
                r.cursor + 1, r.limit, r.saved⟩, .redo) := by
            simp only [cpStep, hstep]
          rw [hcp'] at hcp
          simp only [Option.some.injEq, Prod.mk.injEq] at hcp
          obtain ⟨hr', ha⟩ := hcp
          subst hr'
          subst ha
          have hrecv₂ : fwd r.commands[r.cursor] r.receiver =
              replay fwd r.commands (r.cursor + 1) base := by
            rw [hgood, replay_succ fwd base hget]
          obtain ⟨r₂', hcanc', hcom', hcur', hrecv', hlim'⟩ :=
            ih ⟨r.commands, fwd r.commands[r.cursor] r.receiver,
              r.cursor + 1, r.limit, r.saved⟩ _ stack' base hrecv₂
              (by show r.cursor + 1 ≤ r.commands.length
                  omega)
              (by show r.commands.length + ops.length ≤ r.limit
                  simp only [List.length_cons] at hfit
                  omega)
              hrun2
          rw [cpCancel_cons, hcanc']
          show ∃ r₂, cpCancelAction impl r₂' CpAction.redo =
              CancelResult.ok r₂ ∧ r₂.commands = r.commands ∧
              r₂.cursor = r.cursor ∧ r₂.receiver = r.receiver ∧
              r₂.limit = r.limit
          have hca := cancel_redo_action impl fwd bwd P r₂' r.commands
            r.cursor base hlt (by rw [hcom']) (by rw [hcur'])
            (by rw [hrecv']
                exact hrecv₂)
          rw [hca]
          refine ⟨_, rfl, rfl, rfl, ?_, by
            show r₂'.limit = r.limit
            rw [hlim']⟩
          show replay fwd r.commands r.cursor base = r.receiver
          rw [hgood]
        | goTo t =>
          have ht : t ≤ r.commands.length := by
            by_contra hnt
            have hns : r.goTo impl t = some .none := by
              simp only [Record.goTo]
              rw [if_pos (by omega)]
            simp only [cpStep, hns] at hcp
            exact Option.noConfusion hcp
          obtain ⟨sig, hstep⟩ := pure_goTo impl fwd bwd P r t base ht hle
            hgood
          have hcp' : cpStep impl r (.goTo t) =
              some (⟨r.commands, replay fwd r.commands t base, t, r.limit,
                r.saved⟩, .goTo r.cursor) := by
            simp only [cpStep, hstep]
          rw [hcp'] at hcp
          simp only [Option.some.injEq, Prod.mk.injEq] at hcp
          obtain ⟨hr', ha⟩ := hcp
          subst hr'
          subst ha
          obtain ⟨r₂', hcanc', hcom', hcur', hrecv', hlim'⟩ :=
            ih ⟨r.commands, replay fwd r.commands t base, t, r.limit,
              r.saved⟩ _ stack' base rfl
              (by show t ≤ r.commands.length
                  exact ht)
              (by show r.commands.length + ops.length ≤ r.limit
                  simp only [List.length_cons] at hfit
                  omega)
              hrun2
          rw [cpCancel_cons, hcanc']
          show ∃ r₂, cpCancelAction impl r₂' (CpAction.goTo r.cursor) =
              CancelResult.ok r₂ ∧ r₂.commands = r.commands ∧
              r₂.cursor = r.cursor ∧ r₂.receiver = r.receiver ∧
              r₂.limit = r.limit
          have hca := cancel_goTo_action impl fwd bwd P r₂' r.commands
            r.cursor t base hle ht (by rw [hcom']) (by rw [hcur'])
            (by rw [hrecv'])
          rw [hca]
          refine ⟨_, rfl, rfl, rfl, ?_, by
            show r₂'.limit = r.limit
            rw [hlim']⟩
          show replay fwd r.commands r.cursor base = r.receiver
          rw [hgood]

/-- C1 (amended): for a `Checkpoint` wrapping a `Record`, after any
number of forwarded `apply`/`undo`/`redo`/`go_to` calls that all return
success, `cancel()` succeeds and restores the wrapped record's receiver
and cursor (and log and limit) to their checkpoint-creation values —
provided each command's `apply`/`redo` and `undo` act as pure mutually
inverse functions on the receiver (the claim's exact-inverse
precondition), the commands never merge, and the limit is large enough
that no eviction can occur during the forwarded calls. -/
theorem c1_checkpoint_cancel_restores (impl : CommandImpl R C ε)
    (fwd bwd : C → R → R) (P : PureImpl impl fwd bwd)
    (ops : List (CpOp C)) (r r₁ : Record R C) (stack : List (CpAction C))
    (hle : r.cursor ≤ r.commands.length)
    (hfit : r.commands.length + ops.length ≤ r.limit)
    (hrun : cpRun impl r ops = some (r₁, stack)) :
    ∃ r₂, cpCancel impl r₁ stack = .ok r₂ ∧
      r₂.receiver = r.receiver ∧ r₂.cursor = r.cursor ∧
      r₂.commands = r.commands ∧ r₂.limit = r.limit := by
  have hbase : r.receiver = replay fwd r.commands r.cursor
      ((r.commands.take r.cursor).reverse.foldl (fun a c => bwd c a)
        r.receiver) :=
    (foldl_fwd_bwd fwd bwd P.hfb (r.commands.take r.cursor)
      r.receiver).symm
  obtain ⟨r₂, h1, h2, h3, h4, h5⟩ := cpRun_cancel_aux impl fwd bwd P ops
    r r₁ stack _ hbase hle hfit hrun
  exact ⟨r₂, h1, h4, h3, h2, h5⟩

/-- The exact-inverse increment command over an `Int` receiver. -/
def IntIncrImpl : CommandImpl Int Unit Unit where
  applyC := fun _ n => ((), n + 1, none)
  undoC := fun _ n => ((), n - 1, none)
  redoC := fun _ n => ((), n + 1, none)
  mergeC := fun a b => (a, some b)

theorem intIncr_pure :
    PureImpl IntIncrImpl (fun _ n => n + 1) (fun _ n => n - 1) where
  happly := fun _ _ => rfl
  hundo := fun _ _ => rfl
  hredo := fun _ _ => rfl
  hbf := fun _ ρ => by omega
  hfb := fun _ ρ => by omega
  hmerge := fun _ _ => rfl

theorem c1_witness :
    ∃ r₂, cpCancel IntIncrImpl
        (⟨[(), ()], 1, 1, USIZE_MAX, some 0⟩ : Record Int Unit)
        [.apply [], .apply [], .undo] = .ok r₂ ∧
      r₂.receiver = (Record.new 0 : Record Int Unit).receiver ∧
      r₂.cursor = (Record.new 0 : Record Int Unit).cursor ∧
      r₂.commands = (Record.new 0 : Record Int Unit).commands ∧
      r₂.limit = (Record.new 0 : Record Int Unit).limit :=
  c1_checkpoint_cancel_restores IntIncrImpl _ _ intIncr_pure
    [.apply (), .apply (), .undo] (Record.new 0)
    ⟨[(), ()], 1, 1, USIZE_MAX, some 0⟩ [.apply [], .apply [], .undo]
    (by decide) (by decide) (by decide)

/-- C1 (counterexample to the claim as stated): on a record built with
`limit = 1`, two applies of the exact-inverse increment command through a
checkpoint succeed (the second evicts the first's entry), `cancel()`
returns `Ok` with every inverse step it executed succeeding — yet the
receiver ends at `1`, not the pre-checkpoint `0`. -/
theorem c1_counterexample :
    Record.build 0 1 true =
        some (⟨[], 0, 0, 1, some 0⟩ : Record Int Unit) ∧
      cpRun IntIncrImpl (⟨[], 0, 0, 1, some 0⟩ : Record Int Unit)
          [.apply (), .apply ()] =
        some (⟨[()], 2, 1, 1, none⟩, [.apply [], .apply []]) ∧
      cpCancel IntIncrImpl (⟨[()], 2, 1, 1, none⟩ : Record Int Unit)
          [.apply [], .apply []] = .ok ⟨[], 1, 0, 1, none⟩ ∧
      (⟨[], 1, 0, 1, none⟩ : Record Int Unit).receiver ≠
        (⟨[], 0, 0, 1, some 0⟩ : Record Int Unit).receiver := by
  decide
